import Mathlib

/-!
Verification of the chunked memory-pool allocator (MemoryPool.cpp).

The development shallowly embeds the allocator state and its public
operations.  Byte addresses returned by the C++ code are modelled as
offsets from the backing buffer base (`begin * DEFAULT_CHUNK_SIZE`);
a null pointer result is modelled as `none`.  The std::list `freeList`
is a `List (Nat × Nat)` of half-open chunk ranges in position order; the
std::set `freeSetBySize` of iterators into that list is a `List` kept in
the comparator order of `CompareFreeIndices`; the std::map `allocations`
is an association list kept in strictly increasing key order.
-/

/-- Chunk size constant, from MemoryPool.hpp. -/
def DEFAULT_CHUNK_SIZE : Nat := 1024

/-- State of one MemoryPool (the single pool of MemoryPool.cpp).
`poolSize` is the backing buffer size in bytes (`pool.size()`). -/
structure MemoryPool where
  poolSize : Nat
  freeList : List (Nat × Nat)
  freeSetBySize : List (Nat × Nat)
  allocations : List (Nat × (Nat × Nat))
deriving DecidableEq, Repr

/-- CompareFreeIndices::operator(): order a pair of free ranges by size,
ties broken by the lexicographic order of the ranges themselves
(std::pair operator<). -/
def CompareFreeIndices (lhs rhs : Nat × Nat) : Bool :=
  let lhsSize := lhs.2 - lhs.1
  let rhsSize := rhs.2 - rhs.1
  if lhsSize = rhsSize then
    decide (lhs.1 < rhs.1 ∨ (lhs.1 = rhs.1 ∧ lhs.2 < rhs.2))
  else
    decide (lhsSize < rhsSize)

/-- std::set::insert on `freeSetBySize`: place the new range at its
comparator position; if an equivalent element is present, do nothing. -/
def setInsert : List (Nat × Nat) → (Nat × Nat) → List (Nat × Nat)
  | [], x => [x]
  | y :: ys, x =>
    if CompareFreeIndices x y then x :: y :: ys
    else if CompareFreeIndices y x then y :: setInsert ys x
    else y :: ys

/-- std::set::erase(find(x)): remove the first comparator-equivalent
element, if any. -/
def setErase : List (Nat × Nat) → (Nat × Nat) → List (Nat × Nat)
  | [], _ => []
  | y :: ys, x =>
    if !CompareFreeIndices x y && !CompareFreeIndices y x then ys
    else y :: setErase ys x

/-- std::set::lower_bound(requestedChunks) with the heterogeneous
comparator `size(*it) < k`: the first range whose size is at least k. -/
def setLowerBound : List (Nat × Nat) → Nat → Option (Nat × Nat)
  | [], _ => none
  | y :: ys, k => if y.2 - y.1 < k then setLowerBound ys k else some y

/-- std::list::erase of the node holding the given range (ranges in the
free list are pairwise distinct, so first match is the node). -/
def listErase : List (Nat × Nat) → (Nat × Nat) → List (Nat × Nat)
  | [], _ => []
  | y :: ys, x => if y = x then ys else y :: listErase ys x

/-- In-place mutation `freeListItr->first += requestedChunks` of a node:
replace the (unique) occurrence of `x` by `z`. -/
def listReplace : List (Nat × Nat) → (Nat × Nat) → (Nat × Nat) → List (Nat × Nat)
  | [], _, _ => []
  | y :: ys, x, z => if y = x then z :: ys else y :: listReplace ys x z

/-- std::map lookup on `allocations` (keys are byte offsets). -/
def mapLookup : List (Nat × (Nat × Nat)) → Nat → Option (Nat × Nat)
  | [], _ => none
  | (b, s) :: m, a => if a = b then some s else mapLookup m a

/-- std::map operator[] assignment: insert in key order, replacing the
value if the key is already present. -/
def mapInsert : List (Nat × (Nat × Nat)) → Nat → (Nat × Nat) → List (Nat × (Nat × Nat))
  | [], a, r => [(a, r)]
  | (b, s) :: m, a, r =>
    if a < b then (a, r) :: (b, s) :: m
    else if b < a then (b, s) :: mapInsert m a r
    else (a, r) :: m

/-- std::map::erase(find(key)). -/
def mapErase : List (Nat × (Nat × Nat)) → Nat → List (Nat × (Nat × Nat))
  | [], _ => []
  | (b, s) :: m, a => if a = b then m else (b, s) :: mapErase m a

/-- MemoryPool::MemoryPool(numChunks): buffer of numChunks chunks, one
free range [0, numChunks) in both indices, no allocations. -/
def mkMemoryPool (numChunks : Nat) : MemoryPool :=
  { poolSize := numChunks * DEFAULT_CHUNK_SIZE
    freeList := [(0, numChunks)]
    freeSetBySize := [(0, numChunks)]
    allocations := [] }

/-- MemoryPool::getRequiredChunks: `n / CHUNK + (n % CHUNK ? 1 : 0)`. -/
def MemoryPool.getRequiredChunks (n : Nat) : Nat :=
  n / DEFAULT_CHUNK_SIZE + (if n % DEFAULT_CHUNK_SIZE ≠ 0 then 1 else 0)

/-- MemoryPool::allocate.  Returns the byte offset of the allocation
(`none` models returning a null pointer), together with the new state. -/
def MemoryPool.allocate (p : MemoryPool) (n : Nat) : Option Nat × MemoryPool :=
  if p.freeList = [] then (none, p)
  else
    let requestedChunks := MemoryPool.getRequiredChunks n
    match setLowerBound p.freeSetBySize requestedChunks with
    | none => (none, p)
    | some r =>
      let beginIndex := r.1
      let endIndex := r.2
      let erasedSet := setErase p.freeSetBySize r
      let ptr := beginIndex * DEFAULT_CHUNK_SIZE
      if endIndex - beginIndex = requestedChunks then
        (some ptr,
          { p with
            freeList := listErase p.freeList r
            freeSetBySize := erasedSet
            allocations := mapInsert p.allocations ptr (beginIndex, beginIndex + requestedChunks) })
      else
        (some ptr,
          { p with
            freeList := listReplace p.freeList r (beginIndex + requestedChunks, endIndex)
            freeSetBySize := setInsert erasedSet (beginIndex + requestedChunks, endIndex)
            allocations := mapInsert p.allocations ptr (beginIndex, beginIndex + requestedChunks) })

/-- The free-list insertion scan of MemoryPool::deallocate: advance while
`current->first < chunkIndices.second`, then insert before `current`. -/
def freeListInsertPos : List (Nat × Nat) → (Nat × Nat) → List (Nat × Nat)
  | [], r => [r]
  | c :: cs, r => if c.1 < r.2 then c :: freeListInsertPos cs r else r :: c :: cs

/-- The merge sweep of MemoryPool::deallocate.  When `current->second ==
next->first` the two nodes merge; both old values leave the size set, the
merged value enters it, and — because `current = freeList.erase(next)`
returns the iterator after the erased node — the sweep continues from the
element after `next`, not from the merged node. -/
def mergeAdjacent : List (Nat × Nat) → List (Nat × Nat) → List (Nat × Nat) × List (Nat × Nat)
  | current :: next :: rest, s =>
    if current.2 = next.1 then
      let merged := (current.1, next.2)
      let s1 := setInsert (setErase (setErase s current) next) merged
      let (tail, s2) := mergeAdjacent rest s1
      (merged :: tail, s2)
    else
      let (tail, s2) := mergeAdjacent (next :: rest) s
      (current :: tail, s2)
  | l, s => (l, s)

/-- MemoryPool::deallocate.  `assert(allocationsItr != allocations.end())`
is modelled by returning `none` (fatal) for an unknown address. -/
def MemoryPool.deallocate (p : MemoryPool) (data : Nat) : Option MemoryPool :=
  match mapLookup p.allocations data with
  | none => none
  | some chunkIndices =>
    let allocations1 := mapErase p.allocations data
    let inserted := freeListInsertPos p.freeList chunkIndices
    let set1 := setInsert p.freeSetBySize chunkIndices
    let (merged, set2) := mergeAdjacent inserted set1
    some { p with freeList := merged, freeSetBySize := set2, allocations := allocations1 }

/-- MemoryPool::getNumAllocations. -/
def MemoryPool.getNumAllocations (p : MemoryPool) : Nat :=
  p.allocations.length

/-- MemoryPool::getNumFreeChunks: sum of `endIndex - beginIndex` over the
free list. -/
def MemoryPool.getNumFreeChunks (p : MemoryPool) : Nat :=
  (p.freeList.map (fun r => r.2 - r.1)).sum

/-- MemoryPool::getNumAllocatedChunks: sum of range sizes over the
allocations map. -/
def MemoryPool.getNumAllocatedChunks (p : MemoryPool) : Nat :=
  (p.allocations.map (fun e => e.2.2 - e.2.1)).sum

/-- MemoryPool::getNumChunks: `pool.size() / DEFAULT_CHUNK_SIZE`. -/
def MemoryPool.getNumChunks (p : MemoryPool) : Nat :=
  p.poolSize / DEFAULT_CHUNK_SIZE

/-- Modelled from the spec: `num_free_fragments` — the number of entries
in the position index.  The source exposes no such getter; the free-list
summary printed by operator<< lists exactly these entries. -/
def MemoryPool.getNumFreeFragments (p : MemoryPool) : Nat :=
  p.freeList.length

/-- State of a MultiPool.  Addresses handed out by a MultiPool are pairs
(pool position, byte offset inside that pool): distinct pools own
disjoint buffers, so the pool position models the pointer disjointness.
The routing map stores the owning pool position (the stable identity of
the std::list iterator stored by the C++ code). -/
structure MultiPool where
  pools : List MemoryPool
  allocations : List ((Nat × Nat) × Nat)
deriving DecidableEq, Repr

/-- Routing-map lookup (std::map keyed by address). -/
def routeLookup : List ((Nat × Nat) × Nat) → (Nat × Nat) → Option Nat
  | [], _ => none
  | (b, j) :: m, a => if a = b then some j else routeLookup m a

/-- Routing-map insert-or-assign. -/
def routeInsert : List ((Nat × Nat) × Nat) → (Nat × Nat) → Nat → List ((Nat × Nat) × Nat)
  | [], a, i => [(a, i)]
  | (b, j) :: m, a, i => if a = b then (a, i) :: m else (b, j) :: routeInsert m a i

/-- Routing-map erase. -/
def routeErase : List ((Nat × Nat) × Nat) → (Nat × Nat) → List ((Nat × Nat) × Nat)
  | [], _ => []
  | (b, j) :: m, a => if a = b then m else (b, j) :: routeErase m a

/-- MultiPool::MultiPool(initialChunks). -/
def mkMultiPool (initialChunks : Nat) : MultiPool :=
  { pools := [mkMemoryPool initialChunks], allocations := [] }

/-- MultiPool::getChunkSize: returns MemoryPool::DEFAULT_CHUNK_SIZE. -/
def MultiPool.getChunkSize (_ : MultiPool) : Nat :=
  DEFAULT_CHUNK_SIZE

/-- The probing loop of MultiPool::allocate: try each pool in order; on
success return the updated pool list, the position of the pool that
served the request and the offset; otherwise return the running maximum
of getNumChunks over the (failed) pools. -/
def allocateOnPools (n : Nat) : List MemoryPool → Nat → (List MemoryPool × Nat × Nat) ⊕ Nat
  | [], most => Sum.inr most
  | pool :: ps, most =>
    match pool.allocate n with
    | (some off, pool') => Sum.inl (pool' :: ps, 0, off)
    | (none, _) =>
      let most' := if most < pool.getNumChunks then pool.getNumChunks else most
      match allocateOnPools n ps most' with
      | Sum.inl (ps', i, off) => Sum.inl (pool :: ps', i + 1, off)
      | Sum.inr m => Sum.inr m

/-- MultiPool::allocate.  If no pool satisfies the request, append a new
MemoryPool of `mostAmountOfChunks * 2 + getRequiredChunks n` chunks and
allocate from it.  (The final `none` branch mirrors the C++ recording a
null pointer; it is proved unreachable: a fresh pool of that capacity
always satisfies the request.) -/
def MultiPool.allocate (mp : MultiPool) (n : Nat) : Option (Nat × Nat) × MultiPool :=
  match allocateOnPools n mp.pools 0 with
  | Sum.inl (ps', i, off) =>
    (some (i, off), { pools := ps', allocations := routeInsert mp.allocations (i, off) i })
  | Sum.inr most =>
    let newPool := mkMemoryPool (most * 2 + MemoryPool.getRequiredChunks n)
    match newPool.allocate n with
    | (some off, pool') =>
      (some (mp.pools.length, off),
        { pools := mp.pools ++ [pool']
          allocations := routeInsert mp.allocations (mp.pools.length, off) mp.pools.length })
    | (none, pool') =>
      (none, { pools := mp.pools ++ [pool'], allocations := mp.allocations })

/-- MultiPool::deallocate: `allocations.at(data)` (throws on an unknown
address, modelled as `none`), delegate to the owning pool, then erase the
routing entry. -/
def MultiPool.deallocate (mp : MultiPool) (data : Nat × Nat) : Option MultiPool :=
  match routeLookup mp.allocations data with
  | none => none
  | some i =>
    match mp.pools.get? i with
    | none => none
    | some pool =>
      match pool.deallocate data.2 with
      | none => none
      | some pool' =>
        some { pools := mp.pools.set i pool', allocations := routeErase mp.allocations data }

/-- MultiPool::getNumAllocations: size of the routing map. -/
def MultiPool.getNumAllocations (mp : MultiPool) : Nat :=
  mp.allocations.length

/-- MultiPool::getNumFreeChunks: sum over the owned pools. -/
def MultiPool.getNumFreeChunks (mp : MultiPool) : Nat :=
  (mp.pools.map MemoryPool.getNumFreeChunks).sum

/-- MultiPool::getNumAllocatedChunks: sum over the owned pools. -/
def MultiPool.getNumAllocatedChunks (mp : MultiPool) : Nat :=
  (mp.pools.map MemoryPool.getNumAllocatedChunks).sum

/-- MultiPool::getNumChunks: sum over the owned pools. -/
def MultiPool.getNumChunks (mp : MultiPool) : Nat :=
  (mp.pools.map MemoryPool.getNumChunks).sum

/-- The running maximum that MultiPool::allocate tracks: the largest
getNumChunks over a list of pools. -/
def maxChunks (l : List MemoryPool) : Nat :=
  l.foldr (fun q m => max q.getNumChunks m) 0

/-- Chunk index i lies in the half-open range r. -/
def inRange (r : Nat × Nat) (i : Nat) : Bool :=
  decide (r.1 ≤ i ∧ i < r.2)

/-- How many ranges of the list cover chunk index i. -/
def countCover (l : List (Nat × Nat)) (i : Nat) : Nat :=
  l.countP (fun r => inRange r i)

/-- The size set is strictly ordered by CompareFreeIndices. -/
def SetSorted (s : List (Nat × Nat)) : Prop :=
  List.Pairwise (fun a b => CompareFreeIndices a b = true) s

/-- The allocations map is strictly ordered by key. -/
def KeysSorted (m : List (Nat × (Nat × Nat))) : Prop :=
  List.Pairwise (fun e f => e.1 < f.1) m

/-- Structural invariant of a MemoryPool that every public operation
preserves, including degenerate zero-byte requests: all ranges are
well-formed and in bounds, allocation keys encode the range begin and
are strictly sorted, the size set is sorted and holds exactly the
free-list ranges, no chunk is covered twice, and an empty range is never
simultaneously in the free list and in the allocations map. -/
def BaseInvariant (p : MemoryPool) : Prop :=
  (∀ r ∈ p.freeList, r.1 ≤ r.2 ∧ r.2 ≤ p.getNumChunks) ∧
  (∀ e ∈ p.allocations, e.2.1 ≤ e.2.2 ∧ e.2.2 ≤ p.getNumChunks ∧
    e.1 = e.2.1 * DEFAULT_CHUNK_SIZE) ∧
  KeysSorted p.allocations ∧
  SetSorted p.freeSetBySize ∧
  p.freeSetBySize.Perm p.freeList ∧
  (∀ i < p.getNumChunks,
    countCover p.freeList i + countCover (p.allocations.map Prod.snd) i ≤ 1) ∧
  (∀ c : Nat, (c, c) ∈ p.freeList → (c * DEFAULT_CHUNK_SIZE, (c, c)) ∉ p.allocations)

/-- Invariant of pools whose allocate calls all requested at least one
byte: additionally every range is non-empty and the free and allocated
ranges exactly partition the chunk space. -/
def StrongInvariant (p : MemoryPool) : Prop :=
  BaseInvariant p ∧
  (∀ r ∈ p.freeList, r.1 < r.2) ∧
  (∀ e ∈ p.allocations, e.2.1 < e.2.2) ∧
  (∀ i < p.getNumChunks,
    countCover p.freeList i + countCover (p.allocations.map Prod.snd) i = 1)

/-- Pools reachable from a constructor call by public operations. -/
inductive MemoryPool.Reachable : MemoryPool → Prop
  | construct (n : Nat) : Reachable (mkMemoryPool n)
  | allocStep (p p' : MemoryPool) (n : Nat) (a : Option Nat) :
      Reachable p → p.allocate n = (a, p') → Reachable p'
  | deallocStep (p p' : MemoryPool) (a : Nat) :
      Reachable p → p.deallocate a = some p' → Reachable p'

/-- Pools reachable by public operations whose allocation requests are
all of at least one byte (as the spec assumes via k ≥ 1). -/
inductive MemoryPool.ReachablePos : MemoryPool → Prop
  | construct (n : Nat) : 1 ≤ n → ReachablePos (mkMemoryPool n)
  | allocStep (p p' : MemoryPool) (n : Nat) (a : Option Nat) :
      ReachablePos p → 1 ≤ n → p.allocate n = (a, p') → ReachablePos p'
  | deallocStep (p p' : MemoryPool) (a : Nat) :
      ReachablePos p → p.deallocate a = some p' → ReachablePos p'

/-- MultiPools reachable by public operations whose allocation requests
are all of at least one byte. -/
inductive MultiPool.ReachablePos : MultiPool → Prop
  | construct (n : Nat) : 1 ≤ n → ReachablePos (mkMultiPool n)
  | allocStep (mp mp' : MultiPool) (n : Nat) (a : Option (Nat × Nat)) :
      ReachablePos mp → 1 ≤ n → mp.allocate n = (a, mp') → ReachablePos mp'
  | deallocStep (mp mp' : MultiPool) (d : Nat × Nat) :
      ReachablePos mp → mp.deallocate d = some mp' → ReachablePos mp'

/-!
Theorems.  Shared lemmas come first; each claim is settled by one named
theorem (plus, where required, a witness or a counterexample theorem).
-/

/-- C1.  The claim fails on the code: in the S5 scenario (four 1-chunk
blocks fill a 4-chunk pool; A, then C, then B are freed) the merge sweep
of deallocate advances past a just-merged node (`current =
freeList.erase(next)`), so after freeing B the free list still holds the
two touching ranges [0,2) and [2,3): the fragments number 2, not 1, and
the no-touching invariant `A.end < B.begin` is violated (2 < 2 fails). -/
theorem C1_threeWayMerge_code_eval :
    (let p0 := mkMemoryPool 4
     let p4 := (((((p0.allocate 1).2.allocate 1).2.allocate 1).2.allocate 1)).2
     let q1 := (p4.deallocate 0).getD p4
     let q2 := (q1.deallocate (2 * DEFAULT_CHUNK_SIZE)).getD q1
     let q3 := (q2.deallocate DEFAULT_CHUNK_SIZE).getD q2
     q3.freeList = [(0, 2), (2, 3)] ∧
       q3.getNumFreeFragments = 2 ∧
       ¬q3.getNumFreeFragments = 1 ∧
       ¬((2:Nat) < 2)) := by
  decide

/-- C2.  The claim fails on the code: allocate four 1-chunk blocks from a
4-chunk pool and deallocate every returned address (order A, C, B, D).
Because the merge sweep skips the node it just merged, the final free
list is [0,3), [3,4) — two fragments — instead of the initial single
range [0,4), even though every allocation was paired with a deallocation
and the allocations map is empty again. -/
theorem C2_roundTrip_code_eval :
    (let p0 := mkMemoryPool 4
     let p4 := (((((p0.allocate 1).2.allocate 1).2.allocate 1).2.allocate 1)).2
     let q1 := (p4.deallocate 0).getD p4
     let q2 := (q1.deallocate (2 * DEFAULT_CHUNK_SIZE)).getD q1
     let q3 := (q2.deallocate DEFAULT_CHUNK_SIZE).getD q2
     let q4 := (q3.deallocate (3 * DEFAULT_CHUNK_SIZE)).getD q3
     q4.allocations = [] ∧
       q4.freeList = [(0, 3), (3, 4)] ∧
       ¬q4.freeList = [(0, 4)]) := by
  decide

/-- C7 counterexample.  getRequiredChunks 0 = 0: the requested chunk
count used by allocate is 0, not at least 1, for a zero-byte request. -/
theorem C7_requiredChunks_cex :
    MemoryPool.getRequiredChunks 0 = 0 ∧ ¬(1 ≤ MemoryPool.getRequiredChunks 0) := by
  decide

/-- C7 (amended).  getRequiredChunks computes the ceiling of
n / DEFAULT_CHUNK_SIZE: it equals (n + CHUNK - 1) / CHUNK, it is the
least k with n ≤ CHUNK * k, and it is at least 1 whenever n ≥ 1 (for
n = 0 it is 0). -/
theorem C7_requiredChunks_ceiling (n : Nat) :
    MemoryPool.getRequiredChunks n = (n + DEFAULT_CHUNK_SIZE - 1) / DEFAULT_CHUNK_SIZE ∧
      n ≤ DEFAULT_CHUNK_SIZE * MemoryPool.getRequiredChunks n ∧
      DEFAULT_CHUNK_SIZE * MemoryPool.getRequiredChunks n < n + DEFAULT_CHUNK_SIZE ∧
      (1 ≤ n → 1 ≤ MemoryPool.getRequiredChunks n) := by
  simp only [MemoryPool.getRequiredChunks, DEFAULT_CHUNK_SIZE]
  split <;> omega

/-- C7 witness: at n = 5 bytes the hypothesis 1 ≤ n holds and the
required chunk count is 1. -/
theorem C7_requiredChunks_witness : 1 ≤ MemoryPool.getRequiredChunks 5 :=
  (C7_requiredChunks_ceiling 5).2.2.2 (by decide)

/-- C8 counterexample.  The compile-time chunk-size constant of the
source is 1024 bytes, not the 128 bytes the claim assumes. -/
theorem C8_chunkSize_cex : ¬(DEFAULT_CHUNK_SIZE = 128) := by
  decide

/-- C8 (amended).  The exposed chunk-size constant equals 1024 bytes;
MultiPool::getChunkSize returns it, and a pool of 4 chunks holds a
4 * 1024 = 4096-byte buffer. -/
theorem C8_chunkSize (mp : MultiPool) :
    DEFAULT_CHUNK_SIZE = 1024 ∧ mp.getChunkSize = 1024 ∧
      (mkMemoryPool 4).poolSize = 4096 := by
  exact ⟨rfl, rfl, rfl⟩

/-- C9.  Deallocating an address that is not a key of the allocations
map (SinglePool) or of the routing map (MultiPool) is detected and
fatal: both deallocate operations end in the fatal outcome (`none`,
modelling the failed assert and the throwing map::at) and never recover
into a state. -/
theorem C9_unknownAddress_fatal :
    (∀ (p : MemoryPool) (a : Nat),
        mapLookup p.allocations a = none → p.deallocate a = none) ∧
      (∀ (mp : MultiPool) (d : Nat × Nat),
        routeLookup mp.allocations d = none → mp.deallocate d = none) := by
  constructor
  · intro p a h
    simp [MemoryPool.deallocate, h]
  · intro mp d h
    simp [MultiPool.deallocate, h]

/-- C9 witness: a fresh pool has no allocation at byte offset 7, and
deallocating it is fatal; likewise for a fresh MultiPool. -/
theorem C9_unknownAddress_fatal_witness :
    mapLookup (mkMemoryPool 2).allocations 7 = none ∧
      (mkMemoryPool 2).deallocate 7 = none ∧
      routeLookup (mkMultiPool 2).allocations (0, 7) = none ∧
      (mkMultiPool 2).deallocate (0, 7) = none :=
  ⟨rfl, C9_unknownAddress_fatal.1 (mkMemoryPool 2) 7 rfl, rfl,
    C9_unknownAddress_fatal.2 (mkMultiPool 2) (0, 7) rfl⟩

/-- C5 counterexample.  Conservation fails after a public operation when
a zero-byte allocation is involved: on a 4-chunk pool the sequence
allocate(2048) = A, allocate(0) = z, deallocate A, deallocate z,
allocate(2048), allocate(1024), allocate(0) ends with
num_free_chunks + num_allocated_chunks = 1 + 2 = 3 but num_chunks = 4
(chunk 2 leaks: the final zero-byte allocation overwrites the live
record [2,3) at the same base address).  The same sequence through a
MultiPool violates the aggregated identity as well. -/
theorem C5_conservation_cex :
    (let p0 := mkMemoryPool 4
     let s1 := (p0.allocate (2 * DEFAULT_CHUNK_SIZE)).2
     let s2 := (s1.allocate 0).2
     let s3 := (s2.deallocate 0).getD s2
     let s4 := (s3.deallocate (2 * DEFAULT_CHUNK_SIZE)).getD s3
     let s5 := (s4.allocate (2 * DEFAULT_CHUNK_SIZE)).2
     let s6 := (s5.allocate DEFAULT_CHUNK_SIZE).2
     let s7 := (s6.allocate 0).2
     s7.getNumFreeChunks + s7.getNumAllocatedChunks = 3 ∧
       s7.getNumChunks = 4 ∧
       ¬(s7.getNumFreeChunks + s7.getNumAllocatedChunks = s7.getNumChunks)) ∧
    (let m0 := mkMultiPool 4
     let m1 := (m0.allocate (2 * DEFAULT_CHUNK_SIZE)).2
     let m2 := (m1.allocate 0).2
     let m3 := (m2.deallocate ((0 : Nat), (0 : Nat))).getD m2
     let m4 := (m3.deallocate ((0 : Nat), 2 * DEFAULT_CHUNK_SIZE)).getD m3
     let m5 := (m4.allocate (2 * DEFAULT_CHUNK_SIZE)).2
     let m6 := (m5.allocate DEFAULT_CHUNK_SIZE).2
     let m7 := (m6.allocate 0).2
     m7.getNumFreeChunks + m7.getNumAllocatedChunks = 3 ∧
       m7.getNumChunks = 4 ∧
       ¬(m7.getNumFreeChunks + m7.getNumAllocatedChunks = m7.getNumChunks)) := by
  constructor <;> decide

/-- The comparator is irreflexive. -/
theorem cmp_irrefl (x : Nat × Nat) : CompareFreeIndices x x = false := by
  simp [CompareFreeIndices]

/-- Explicit characterization of the comparator: size first, then the
lexicographic pair order. -/
theorem cmp_iff (x y : Nat × Nat) :
    CompareFreeIndices x y = true ↔
      (x.2 - x.1 < y.2 - y.1 ∨
        (x.2 - x.1 = y.2 - y.1 ∧ (x.1 < y.1 ∨ (x.1 = y.1 ∧ x.2 < y.2)))) := by
  simp only [CompareFreeIndices]
  split_ifs with h
  · simp only [decide_eq_true_eq]
    constructor
    · intro hp
      exact Or.inr ⟨h, hp⟩
    · intro hp
      rcases hp with hp | hp
      · omega
      · exact hp.2
  · simp only [decide_eq_true_eq]
    constructor
    · intro hp
      exact Or.inl hp
    · intro hp
      rcases hp with hp | hp
      · exact hp
      · exact absurd hp.1 h

/-- Two mutually incomparable ranges are equal: the size-then-pair order
is a strict total order. -/
theorem cmp_eq_of_incomp {x y : Nat × Nat}
    (h1 : CompareFreeIndices x y = false) (h2 : CompareFreeIndices y x = false) :
    x = y := by
  rw [Bool.eq_false_iff, Ne, cmp_iff] at h1 h2
  obtain ⟨a, b⟩ := x
  obtain ⟨c, d⟩ := y
  simp only [Prod.mk.injEq]
  simp only at h1 h2
  omega

/-- The comparator is transitive. -/
theorem cmp_trans {x y z : Nat × Nat}
    (h1 : CompareFreeIndices x y = true) (h2 : CompareFreeIndices y z = true) :
    CompareFreeIndices x z = true := by
  rw [cmp_iff] at h1 h2 ⊢
  omega

/-- The comparator is asymmetric. -/
theorem cmp_asymm {x y : Nat × Nat} (h : CompareFreeIndices x y = true) :
    CompareFreeIndices y x = false := by
  by_contra hc
  have hyx : CompareFreeIndices y x = true := by
    revert hc
    cases CompareFreeIndices y x <;> simp
  have := cmp_trans h hyx
  rw [cmp_irrefl] at this
  exact Bool.false_ne_true this

/-- Members of setInsert come from the inserted range or the old set. -/
theorem mem_setInsert {s : List (Nat × Nat)} {x y : Nat × Nat}
    (h : y ∈ setInsert s x) : y = x ∨ y ∈ s := by
  induction s with
  | nil => simpa [setInsert] using h
  | cons z zs ih =>
    simp only [setInsert] at h
    split_ifs at h with h1 h2
    · rcases List.mem_cons.mp h with h | h
      · exact Or.inl h
      · exact Or.inr h
    · rcases List.mem_cons.mp h with h | h
      · exact Or.inr (by simp [h])
      · rcases ih h with h' | h'
        · exact Or.inl h'
        · exact Or.inr (by simp [h'])
    · exact Or.inr h

/-- setInsert of a range not already present is a permutation of
consing it. -/
theorem setInsert_perm {s : List (Nat × Nat)} {x : Nat × Nat} (h : x ∉ s) :
    (setInsert s x).Perm (x :: s) := by
  induction s with
  | nil => simp [setInsert]
  | cons z zs ih =>
    simp only [List.mem_cons, not_or] at h
    simp only [setInsert]
    split_ifs with h1 h2
    · exact List.Perm.refl _
    · exact ((ih h.2).cons z).trans (List.Perm.swap x z zs)
    · exact absurd (cmp_eq_of_incomp (by simpa using h1) (by simpa using h2)) h.1

/-- setInsert preserves sortedness. -/
theorem setInsert_sorted {s : List (Nat × Nat)} {x : Nat × Nat}
    (h : SetSorted s) : SetSorted (setInsert s x) := by
  induction s with
  | nil => simp [setInsert, SetSorted]
  | cons z zs ih =>
    rw [SetSorted, List.pairwise_cons] at h
    obtain ⟨hz, hzs⟩ := h
    simp only [setInsert]
    split_ifs with h1 h2
    · rw [SetSorted, List.pairwise_cons]
      refine ⟨?_, List.Pairwise.cons hz hzs⟩
      intro w hw
      rcases List.mem_cons.mp hw with hw | hw
      · simpa [hw] using h1
      · exact cmp_trans h1 (hz w hw)
    · rw [SetSorted, List.pairwise_cons]
      refine ⟨?_, ih hzs⟩
      intro w hw
      rcases mem_setInsert hw with hw' | hw'
      · simpa [hw'] using h2
      · exact hz w hw'
    · exact List.Pairwise.cons hz hzs

/-- setErase coincides with erasing the (unique) equal element. -/
theorem setErase_eq_listErase (s : List (Nat × Nat)) (x : Nat × Nat) :
    setErase s x = listErase s x := by
  induction s with
  | nil => rfl
  | cons y ys ih =>
    simp only [setErase, listErase]
    by_cases hxy : y = x
    · subst hxy
      simp [cmp_irrefl]
    · have hcond : ¬((!CompareFreeIndices x y && !CompareFreeIndices y x) = true) := by
        intro hc
        simp only [Bool.and_eq_true, Bool.not_eq_true'] at hc
        exact hxy (cmp_eq_of_incomp hc.1 hc.2).symm
      rw [if_neg hcond, if_neg hxy, ih]

/-- Erasing a member is inverse to consing it, up to permutation. -/
theorem listErase_perm {l : List (Nat × Nat)} {x : Nat × Nat} (h : x ∈ l) :
    l.Perm (x :: listErase l x) := by
  induction l with
  | nil => cases h
  | cons y ys ih =>
    simp only [listErase]
    by_cases hxy : y = x
    · subst hxy
      simp
    · rw [if_neg hxy]
      have hx : x ∈ ys := by
        rcases List.mem_cons.mp h with h | h
        · exact absurd h.symm hxy
        · exact h
      exact ((ih hx).cons y).trans (List.Perm.swap x y _)

/-- listErase is a sublist. -/
theorem listErase_sublist (l : List (Nat × Nat)) (x : Nat × Nat) :
    (listErase l x).Sublist l := by
  induction l with
  | nil => simp [listErase]
  | cons y ys ih =>
    simp only [listErase]
    split_ifs with h
    · exact List.sublist_cons_self y ys
    · exact ih.cons₂ y

/-- Replacing a range by itself changes nothing. -/
theorem listReplace_self (l : List (Nat × Nat)) (x : Nat × Nat) :
    listReplace l x x = l := by
  induction l with
  | nil => rfl
  | cons y ys ih =>
    simp only [listReplace]
    split_ifs with h
    · rw [h]
    · rw [ih]

/-- Replacing a member is, up to permutation, erasing it and consing the
replacement. -/
theorem listReplace_perm {l : List (Nat × Nat)} {x : Nat × Nat} (z : Nat × Nat)
    (h : x ∈ l) : (listReplace l x z).Perm (z :: listErase l x) := by
  induction l with
  | nil => cases h
  | cons y ys ih =>
    simp only [listReplace, listErase]
    by_cases hxy : y = x
    · simp [hxy]
    · rw [if_neg hxy, if_neg hxy]
      have hx : x ∈ ys := by
        rcases List.mem_cons.mp h with h | h
        · exact absurd h.symm hxy
        · exact h
      exact ((ih hx).cons y).trans (List.Perm.swap z y _)

/-- Members of listReplace are the replacement or old members. -/
theorem mem_listReplace {l : List (Nat × Nat)} {x z w : Nat × Nat}
    (h : w ∈ listReplace l x z) : w = z ∨ w ∈ l := by
  induction l with
  | nil => simpa [listReplace] using h
  | cons y ys ih =>
    simp only [listReplace] at h
    split_ifs at h with h1
    · rcases List.mem_cons.mp h with h | h
      · exact Or.inl h
      · exact Or.inr (by simp [h])
    · rcases List.mem_cons.mp h with h | h
      · exact Or.inr (by simp [h])
      · rcases ih h with h' | h'
        · exact Or.inl h'
        · exact Or.inr (by simp [h'])

/-- Inserting into the position-ordered free list is a permutation of
consing. -/
theorem freeListInsertPos_perm (l : List (Nat × Nat)) (r : Nat × Nat) :
    (freeListInsertPos l r).Perm (r :: l) := by
  induction l with
  | nil => simp [freeListInsertPos]
  | cons c cs ih =>
    simp only [freeListInsertPos]
    split_ifs with h
    · exact (ih.cons c).trans (List.Perm.swap r c cs)
    · exact List.Perm.refl _

/-- The lower bound is a member of the set. -/
theorem setLowerBound_mem {s : List (Nat × Nat)} {k : Nat} {r : Nat × Nat}
    (h : setLowerBound s k = some r) : r ∈ s := by
  induction s with
  | nil => simp [setLowerBound] at h
  | cons y ys ih =>
    simp only [setLowerBound] at h
    split_ifs at h with h1
    · exact List.mem_cons_of_mem y (ih h)
    · simp only [Option.some.injEq] at h
      subst h
      exact List.mem_cons_self y ys

/-- The lower bound has size at least the request. -/
theorem setLowerBound_size {s : List (Nat × Nat)} {k : Nat} {r : Nat × Nat}
    (h : setLowerBound s k = some r) : k ≤ r.2 - r.1 := by
  induction s with
  | nil => simp [setLowerBound] at h
  | cons y ys ih =>
    simp only [setLowerBound] at h
    split_ifs at h with h1
    · exact ih h
    · simp only [Option.some.injEq] at h
      subst h
      omega

/-- On a sorted set, the lower bound is the best fit: smallest
sufficient size, lowest begin among ties. -/
theorem setLowerBound_min {s : List (Nat × Nat)} {k : Nat} {r : Nat × Nat}
    (hs : SetSorted s) (h : setLowerBound s k = some r) :
    ∀ f ∈ s, k ≤ f.2 - f.1 →
      r.2 - r.1 < f.2 - f.1 ∨ (r.2 - r.1 = f.2 - f.1 ∧ r.1 ≤ f.1) := by
  induction s with
  | nil => simp [setLowerBound] at h
  | cons y ys ih =>
    rw [SetSorted, List.pairwise_cons] at hs
    obtain ⟨hy, hys⟩ := hs
    simp only [setLowerBound] at h
    intro f hf hkf
    rcases List.mem_cons.mp hf with hf | hf
    · subst hf
      split_ifs at h with h1
      · omega
      · simp only [Option.some.injEq] at h
        subst h
        omega
    · split_ifs at h with h1
      · exact ih hys h f hf hkf
      · simp only [Option.some.injEq] at h
        subst h
        have := hy f hf
        rw [cmp_iff] at this
        omega

/-- A zero request returns the head of the set. -/
theorem setLowerBound_zero (y : Nat × Nat) (ys : List (Nat × Nat)) :
    setLowerBound (y :: ys) 0 = some y := by
  simp [setLowerBound]

/-- When a zero request selects a non-empty range, the set holds no
empty range at all. -/
theorem no_empty_of_lowerBound_zero {s : List (Nat × Nat)} {r : Nat × Nat}
    (hs : SetSorted s) (h : setLowerBound s 0 = some r) (hr : r.1 < r.2) :
    ∀ c : Nat, (c, c) ∉ s := by
  intro c hc
  cases s with
  | nil => cases hc
  | cons y ys =>
    rw [setLowerBound_zero] at h
    simp only [Option.some.injEq] at h
    subst h
    rw [SetSorted, List.pairwise_cons] at hs
    rcases List.mem_cons.mp hc with hc | hc
    · rw [← hc] at hr
      omega
    · have := hs.1 (c, c) hc
      rw [cmp_iff] at this
      simp only at this
      omega

/-- Inserting an element below the whole list conses it. -/
theorem setInsert_head_of_all (ys : List (Nat × Nat)) (x : Nat × Nat)
    (hall : ∀ z ∈ ys, CompareFreeIndices x z = true) : setInsert ys x = x :: ys := by
  cases ys with
  | nil => rfl
  | cons z zs =>
    simp only [setInsert]
    rw [if_pos (hall z (List.mem_cons_self z zs))]

/-- Erasing a member of a sorted set and re-inserting it restores the
set exactly. -/
theorem setInsert_setErase_cancel {s : List (Nat × Nat)} {x : Nat × Nat}
    (hs : SetSorted s) (hx : x ∈ s) : setInsert (setErase s x) x = s := by
  induction s with
  | nil => cases hx
  | cons y ys ih =>
    rw [SetSorted, List.pairwise_cons] at hs
    obtain ⟨hy, hys⟩ := hs
    by_cases hxy : y = x
    · subst hxy
      have h1 : setErase (y :: ys) y = ys := by
        simp [setErase, cmp_irrefl]
      rw [h1]
      exact setInsert_head_of_all ys y hy
    · have hxys : x ∈ ys := by
        rcases List.mem_cons.mp hx with h | h
        · exact absurd h.symm hxy
        · exact h
      have h1 : setErase (y :: ys) x = y :: setErase ys x := by
        rw [setErase_eq_listErase, listErase, if_neg hxy, ← setErase_eq_listErase]
      rw [h1]
      have hyx : CompareFreeIndices y x = true := hy x hxys
      simp only [setInsert]
      rw [if_neg (by simp [cmp_asymm hyx]), if_pos hyx, ih hys hxys]

/-- A lookup misses exactly when no entry has the key. -/
theorem mapLookup_eq_none_iff {m : List (Nat × (Nat × Nat))} {a : Nat} :
    mapLookup m a = none ↔ ∀ e ∈ m, e.1 ≠ a := by
  induction m with
  | nil => simp [mapLookup]
  | cons e m ih =>
    obtain ⟨b, s⟩ := e
    simp only [mapLookup]
    split_ifs with h
    · simp [List.forall_mem_cons, h]
    · rw [ih, List.forall_mem_cons]
      constructor
      · intro hall
        exact ⟨fun hc => h hc.symm, hall⟩
      · intro hall
        exact hall.2

/-- A successful lookup exhibits a map entry. -/
theorem mapLookup_mem {m : List (Nat × (Nat × Nat))} {a : Nat} {r : Nat × Nat}
    (h : mapLookup m a = some r) : (a, r) ∈ m := by
  induction m with
  | nil => simp [mapLookup] at h
  | cons e m ih =>
    obtain ⟨b, s⟩ := e
    simp only [mapLookup] at h
    split_ifs at h with hab
    · simp only [Option.some.injEq] at h
      subst hab
      subst h
      exact List.mem_cons_self _ m
    · exact List.mem_cons_of_mem _ (ih h)

/-- Members of mapInsert are the new entry or old entries. -/
theorem mem_mapInsert {m : List (Nat × (Nat × Nat))} {a : Nat} {r : Nat × Nat}
    {e : Nat × (Nat × Nat)} (h : e ∈ mapInsert m a r) : e = (a, r) ∨ e ∈ m := by
  induction m with
  | nil => simpa [mapInsert] using h
  | cons f m ih =>
    obtain ⟨b, s⟩ := f
    simp only [mapInsert] at h
    split_ifs at h with h1 h2
    · rcases List.mem_cons.mp h with h | h
      · exact Or.inl h
      · exact Or.inr h
    · rcases List.mem_cons.mp h with h | h
      · exact Or.inr (by simp [h])
      · rcases ih h with h' | h'
        · exact Or.inl h'
        · exact Or.inr (by simp [h'])
    · rcases List.mem_cons.mp h with h | h
      · exact Or.inl h
      · exact Or.inr (by simp [h])

/-- mapInsert keeps the keys strictly sorted. -/
theorem mapInsert_keysSorted {m : List (Nat × (Nat × Nat))} {a : Nat} {r : Nat × Nat}
    (h : KeysSorted m) : KeysSorted (mapInsert m a r) := by
  induction m with
  | nil => simp [mapInsert, KeysSorted]
  | cons f m ih =>
    obtain ⟨b, s⟩ := f
    rw [KeysSorted, List.pairwise_cons] at h
    obtain ⟨hb, hm⟩ := h
    simp only [mapInsert]
    split_ifs with h1 h2
    · rw [KeysSorted, List.pairwise_cons]
      refine ⟨?_, List.Pairwise.cons hb hm⟩
      intro e he
      rcases List.mem_cons.mp he with he | he
      · rw [he]
        exact h1
      · exact lt_trans h1 (hb e he)
    · rw [KeysSorted, List.pairwise_cons]
      refine ⟨?_, ih hm⟩
      intro e he
      rcases mem_mapInsert he with he' | he'
      · rw [he']
        exact h2
      · exact hb e he'
    · rw [KeysSorted, List.pairwise_cons]
      have hab : a = b := by omega
      subst hab
      exact ⟨hb, hm⟩

/-- mapErase is a sublist. -/
theorem mapErase_sublist (m : List (Nat × (Nat × Nat))) (a : Nat) :
    (mapErase m a).Sublist m := by
  induction m with
  | nil => simp [mapErase]
  | cons f m ih =>
    obtain ⟨b, s⟩ := f
    simp only [mapErase]
    split_ifs with h
    · exact List.sublist_cons_self _ m
    · exact ih.cons₂ _

/-- mapErase keeps the keys strictly sorted. -/
theorem mapErase_keysSorted {m : List (Nat × (Nat × Nat))} {a : Nat}
    (h : KeysSorted m) : KeysSorted (mapErase m a) := by
  exact List.Pairwise.sublist (mapErase_sublist m a) h

/-- Erasing a found entry is inverse to consing it, up to permutation. -/
theorem mapErase_perm {m : List (Nat × (Nat × Nat))} {a : Nat} {r : Nat × Nat}
    (h : mapLookup m a = some r) : m.Perm ((a, r) :: mapErase m a) := by
  induction m with
  | nil => simp [mapLookup] at h
  | cons f m ih =>
    obtain ⟨b, s⟩ := f
    simp only [mapLookup] at h
    simp only [mapErase]
    split_ifs at h with hab
    · simp only [Option.some.injEq] at h
      subst hab
      subst h
      rw [if_pos rfl]
    · rw [if_neg (fun hc => hab hc)]
      exact ((ih h).cons _).trans (List.Perm.swap _ _ _)

/-- Erasing a different key does not change a lookup. -/
theorem mapErase_lookup_ne {m : List (Nat × (Nat × Nat))} {a c : Nat} (h : c ≠ a) :
    mapLookup (mapErase m a) c = mapLookup m c := by
  induction m with
  | nil => rfl
  | cons f m ih =>
    obtain ⟨b, s⟩ := f
    by_cases hab : a = b
    · subst hab
      rw [mapErase, if_pos rfl, mapLookup, if_neg h]
    · rw [mapErase, if_neg (fun hc => hab hc), mapLookup, mapLookup]
      by_cases hcb : c = b
      · rw [if_pos hcb, if_pos hcb]
      · rw [if_neg hcb, if_neg hcb, ih]

/-- With sorted keys, the erased key is gone. -/
theorem mapErase_lookup_self {m : List (Nat × (Nat × Nat))} {a : Nat}
    (h : KeysSorted m) : mapLookup (mapErase m a) a = none := by
  induction m with
  | nil => rfl
  | cons f m ih =>
    obtain ⟨b, s⟩ := f
    rw [KeysSorted, List.pairwise_cons] at h
    obtain ⟨hb, hm⟩ := h
    simp only [mapErase]
    split_ifs with hab
    · subst hab
      rw [mapLookup_eq_none_iff]
      intro e he
      have := hb e he
      omega
    · rw [mapLookup, if_neg hab]
      exact ih hm

/-- Lookup after mapInsert finds the inserted value. -/
theorem mapInsert_lookup_self (m : List (Nat × (Nat × Nat))) (a : Nat) (r : Nat × Nat) :
    mapLookup (mapInsert m a r) a = some r := by
  induction m with
  | nil => simp [mapInsert, mapLookup]
  | cons f m ih =>
    obtain ⟨b, s⟩ := f
    simp only [mapInsert]
    split_ifs with h1 h2
    · rw [mapLookup, if_pos rfl]
    · rw [mapLookup, if_neg (by omega)]
      exact ih
    · rw [mapLookup, if_pos rfl]

/-- Inserting a fresh key is a permutation of consing the entry. -/
theorem mapInsert_fresh_perm {m : List (Nat × (Nat × Nat))} {a : Nat} {r : Nat × Nat}
    (h : mapLookup m a = none) : (mapInsert m a r).Perm ((a, r) :: m) := by
  induction m with
  | nil => simp [mapInsert]
  | cons f m ih =>
    obtain ⟨b, s⟩ := f
    rw [mapLookup] at h
    by_cases hab : a = b
    · rw [if_pos hab] at h
      exact absurd h (by simp)
    · rw [if_neg hab] at h
      simp only [mapInsert]
      split_ifs with h1 h2
      · exact List.Perm.refl _
      · exact ((ih h).cons _).trans (List.Perm.swap _ _ _)
      · omega

/-- Inserting an existing key replaces the entry: a permutation of the
new entry consed onto the erased map. -/
theorem mapInsert_replace_perm {m : List (Nat × (Nat × Nat))} {a : Nat}
    {r r0 : Nat × Nat} (hs : KeysSorted m) (h : mapLookup m a = some r0) :
    (mapInsert m a r).Perm ((a, r) :: mapErase m a) := by
  induction m with
  | nil => simp [mapLookup] at h
  | cons f m ih =>
    obtain ⟨b, s⟩ := f
    rw [KeysSorted, List.pairwise_cons] at hs
    obtain ⟨hb, hm⟩ := hs
    simp only [mapLookup] at h
    simp only [mapInsert, mapErase]
    split_ifs at h with hab
    · subst hab
      rw [if_neg (by omega), if_neg (by omega), if_pos rfl]
    · have hba : b < a := by
        have := hb (a, r0) (mapLookup_mem h)
        exact this
      rw [if_neg (by omega), if_pos hba, if_neg (fun hc => hab hc)]
      exact ((ih hm h).cons _).trans (List.Perm.swap _ _ _)

/-- Re-assigning the same key and value is idempotent. -/
theorem mapInsert_idem (m : List (Nat × (Nat × Nat))) (a : Nat) (r : Nat × Nat) :
    mapInsert (mapInsert m a r) a r = mapInsert m a r := by
  induction m with
  | nil => simp [mapInsert]
  | cons f m ih =>
    obtain ⟨b, s⟩ := f
    simp only [mapInsert]
    split_ifs with h1 h2
    · rw [mapInsert, if_neg (lt_irrefl a), if_neg (lt_irrefl a)]
    · rw [mapInsert, if_neg (by omega : ¬a < b), if_pos h2, ih]
    · rw [mapInsert, if_neg (lt_irrefl a), if_neg (lt_irrefl a)]

/-- Permutations preserve cover counts. -/
theorem countCover_perm {l l' : List (Nat × Nat)} (i : Nat) (h : l.Perm l') :
    countCover l i = countCover l' i :=
  h.countP_eq _

/-- Cover count of a cons. -/
theorem countCover_cons (r : Nat × Nat) (l : List (Nat × Nat)) (i : Nat) :
    countCover (r :: l) i = countCover l i + (if inRange r i then 1 else 0) := by
  simp [countCover, List.countP_cons]

/-- Cover count of an append. -/
theorem countCover_append (l l' : List (Nat × Nat)) (i : Nat) :
    countCover (l ++ l') i = countCover l i + countCover l' i := by
  simp [countCover, List.countP_append]

/-- Sublists have smaller cover counts. -/
theorem countCover_sublist {l l' : List (Nat × Nat)} (i : Nat) (h : l.Sublist l') :
    countCover l i ≤ countCover l' i :=
  h.countP_le _

/-- A member covering i forces a positive count. -/
theorem countCover_pos {l : List (Nat × Nat)} {e : Nat × Nat} {i : Nat}
    (he : e ∈ l) (hi : inRange e i = true) : 1 ≤ countCover l i :=
  List.countP_pos_iff.mpr ⟨e, he, hi⟩

/-- Splitting a well-formed range at an interior point splits its cover
indicator. -/
theorem ite_inRange_split {a b c : Nat} (i : Nat) (h1 : a ≤ b) (h2 : b ≤ c) :
    (if inRange (a, c) i then (1 : Nat) else 0) =
      (if inRange (a, b) i then (1 : Nat) else 0) +
      (if inRange (b, c) i then (1 : Nat) else 0) := by
  simp only [inRange, decide_eq_true_eq]
  split_ifs <;> omega

/-- Indicator monotone under range inclusion. -/
theorem ite_inRange_mono {r r' : Nat × Nat} (i : Nat) (h1 : r'.1 ≤ r.1) (h2 : r.2 ≤ r'.2) :
    (if inRange r i then (1 : Nat) else 0) ≤ (if inRange r' i then (1 : Nat) else 0) := by
  simp only [inRange, decide_eq_true_eq]
  split_ifs <;> omega

/-- An empty range covers nothing. -/
theorem ite_inRange_empty {c i : Nat} : (if inRange (c, c) i then (1 : Nat) else 0) = 0 := by
  simp only [inRange, decide_eq_true_eq]
  split_ifs <;> omega

/-- A sorted set has no duplicates. -/
theorem setSorted_nodup {s : List (Nat × Nat)} (h : SetSorted s) : s.Nodup := by
  rw [SetSorted] at h
  refine List.Pairwise.imp ?_ h
  intro a b hab heq
  subst heq
  rw [cmp_irrefl] at hab
  exact Bool.false_ne_true hab

/-- setErase preserves sortedness. -/
theorem setErase_sorted {s : List (Nat × Nat)} {x : Nat × Nat}
    (h : SetSorted s) : SetSorted (setErase s x) := by
  rw [SetSorted] at h ⊢
  rw [setErase_eq_listErase]
  exact List.Pairwise.sublist (listErase_sublist s x) h

/-- Inserting a fresh key adds its range to the value multiset. -/
theorem countSnd_mapInsert_fresh {m : List (Nat × (Nat × Nat))} {a : Nat}
    {r : Nat × Nat} (i : Nat) (h : mapLookup m a = none) :
    countCover ((mapInsert m a r).map Prod.snd) i
      = countCover (m.map Prod.snd) i + (if inRange r i then 1 else 0) := by
  rw [countCover_perm i ((mapInsert_fresh_perm h).map Prod.snd)]
  simp only [List.map_cons]
  rw [countCover_cons]

/-- Insert-or-assign adds at most the inserted range to the value
multiset. -/
theorem countSnd_mapInsert_le {m : List (Nat × (Nat × Nat))} {a : Nat}
    {r : Nat × Nat} (i : Nat) (hs : KeysSorted m) :
    countCover ((mapInsert m a r).map Prod.snd) i
      ≤ countCover (m.map Prod.snd) i + (if inRange r i then 1 else 0) := by
  cases h : mapLookup m a with
  | none => rw [countSnd_mapInsert_fresh i h]
  | some r0 =>
    rw [countCover_perm i ((mapInsert_replace_perm hs h).map Prod.snd)]
    simp only [List.map_cons]
    rw [countCover_cons]
    have hsub : countCover ((mapErase m a).map Prod.snd) i
        ≤ countCover (m.map Prod.snd) i :=
      countCover_sublist i ((mapErase_sublist m a).map _)
    omega

/-- Erasing a found entry removes its range from the value multiset. -/
theorem countSnd_mapErase {m : List (Nat × (Nat × Nat))} {a : Nat}
    {r : Nat × Nat} (i : Nat) (h : mapLookup m a = some r) :
    countCover (m.map Prod.snd) i
      = countCover ((mapErase m a).map Prod.snd) i + (if inRange r i then 1 else 0) := by
  rw [countCover_perm i ((mapErase_perm h).map Prod.snd)]
  simp only [List.map_cons]
  rw [countCover_cons]

/-- Master lemma for the merge sweep.  `processed` is the part of the
free list the sweep has already passed; the size set holds exactly
`processed ++ l`.  The sweep keeps the set in agreement with the list,
keeps it sorted, preserves cover counts pointwise, keeps ranges
well-formed and bounded, introduces no new empty range, and preserves
positivity of ranges. -/
theorem mergeAdjacent_spec :
    ∀ (fuel : Nat) (l processed s : List (Nat × Nat)) (N : Nat),
      l.length ≤ fuel →
      s.Perm (processed ++ l) →
      SetSorted s →
      (∀ r ∈ processed ++ l, r.1 ≤ r.2 ∧ r.2 ≤ N) →
      (∀ i, i < N → countCover (processed ++ l) i ≤ 1) →
      (mergeAdjacent l s).2.Perm (processed ++ (mergeAdjacent l s).1) ∧
      SetSorted (mergeAdjacent l s).2 ∧
      (∀ i, countCover (processed ++ (mergeAdjacent l s).1) i
          = countCover (processed ++ l) i) ∧
      (∀ r ∈ (mergeAdjacent l s).1, r.1 ≤ r.2 ∧ r.2 ≤ N) ∧
      (∀ c : Nat, (c, c) ∈ (mergeAdjacent l s).1 → (c, c) ∈ l) ∧
      ((∀ r ∈ processed ++ l, r.1 < r.2) → ∀ r ∈ (mergeAdjacent l s).1, r.1 < r.2) := by
  intro fuel
  induction fuel with
  | zero =>
    intro l processed s N hlen hperm hsort hwf hcount
    have hl : l = [] := List.length_eq_zero.mp (Nat.le_zero.mp hlen)
    subst hl
    have hE : mergeAdjacent ([] : List (Nat × Nat)) s = ([], s) := rfl
    rw [hE]
    exact ⟨hperm, hsort, fun i => rfl, by simp, by simp, by simp⟩
  | succ fuel ih =>
    intro l processed s N hlen hperm hsort hwf hcount
    cases l with
    | nil =>
      have hE : mergeAdjacent ([] : List (Nat × Nat)) s = ([], s) := rfl
      rw [hE]
      exact ⟨hperm, hsort, fun i => rfl, by simp, by simp, by simp⟩
    | cons cur l2 =>
      cases l2 with
      | nil =>
        have hE : mergeAdjacent [cur] s = ([cur], s) := rfl
        rw [hE]
        refine ⟨hperm, hsort, fun i => rfl, ?_, ?_, ?_⟩
        · intro r hr
          rw [List.mem_singleton] at hr
          exact hwf r (by simp [hr])
        · intro c hc
          exact hc
        · intro hpos r hr
          rw [List.mem_singleton] at hr
          exact hpos r (by simp [hr])
      | cons next rest =>
        obtain ⟨c1, c2⟩ := cur
        obtain ⟨n1, n2⟩ := next
        have hwf_cur := hwf (c1, c2) (by simp)
        have hwf_next := hwf (n1, n2) (by simp)
        simp only at hwf_cur hwf_next
        have hnodupS : s.Nodup := setSorted_nodup hsort
        have hnodupL : (processed ++ (c1, c2) :: (n1, n2) :: rest).Nodup :=
          hperm.nodup hnodupS
        have hpermL : (processed ++ (c1, c2) :: (n1, n2) :: rest).Perm
            ((c1, c2) :: (n1, n2) :: (processed ++ rest)) :=
          List.perm_middle.trans (List.perm_middle.cons (c1, c2))
        have hnodupL2 : ((c1, c2) :: (n1, n2) :: (processed ++ rest)).Nodup :=
          hpermL.nodup hnodupL
        have hcur_ne : (c1, c2) ∉ (n1, n2) :: (processed ++ rest) :=
          (List.nodup_cons.mp hnodupL2).1
        have hnodupL3 := (List.nodup_cons.mp hnodupL2).2
        have hnext_notin : (n1, n2) ∉ processed ++ rest := (List.nodup_cons.mp hnodupL3).1
        have hcur_notin : (c1, c2) ∉ processed ++ rest :=
          fun hc => hcur_ne (List.mem_cons_of_mem _ hc)
        have hcur_ne_next : (c1, c2) ≠ (n1, n2) :=
          fun hc => hcur_ne (hc ▸ List.mem_cons_self _ _)
        by_cases hm : c2 = n1
        · -- merge step
          have hcur_s : (c1, c2) ∈ s := hperm.mem_iff.mpr (by simp)
          have hsa : (setErase s (c1, c2)).Perm (processed ++ (n1, n2) :: rest) := by
            rw [setErase_eq_listErase]
            have h1 : s.Perm ((c1, c2) :: listErase s (c1, c2)) := listErase_perm hcur_s
            have h3 := (h1.symm.trans hperm).trans List.perm_middle
            exact h3.cons_inv
          have hsa_sorted := setErase_sorted (x := (c1, c2)) hsort
          have hnext_sa : (n1, n2) ∈ setErase s (c1, c2) := hsa.mem_iff.mpr (by simp)
          have hsb : (setErase (setErase s (c1, c2)) (n1, n2)).Perm (processed ++ rest) := by
            rw [setErase_eq_listErase]
            have h1 : (setErase s (c1, c2)).Perm ((n1, n2) :: listErase (setErase s (c1, c2)) (n1, n2)) :=
              listErase_perm hnext_sa
            have h3 := (h1.symm.trans hsa).trans List.perm_middle
            exact h3.cons_inv
          have hsb_sorted := setErase_sorted (x := (n1, n2)) hsa_sorted
          have hfresh : (c1, n2) ∉ setErase (setErase s (c1, c2)) (n1, n2) := by
            intro hc
            have hcmem : (c1, n2) ∈ processed ++ rest := hsb.mem_iff.mp hc
            by_cases hcc : c1 < c2
            · have hlt : c1 < N := by omega
              have hin : inRange (c1, n2) c1 = true := by
                simp only [inRange, decide_eq_true_eq]
                omega
              have hone : 1 ≤ countCover (processed ++ rest) c1 := countCover_pos hcmem hin
              have hin2 : inRange (c1, c2) c1 = true := by
                simp only [inRange, decide_eq_true_eq]
                omega
              have h2 : 2 ≤ countCover (processed ++ (c1, c2) :: (n1, n2) :: rest) c1 := by
                rw [countCover_perm _ hpermL, countCover_cons, countCover_cons, if_pos hin2]
                omega
              have := hcount c1 hlt
              omega
            · have hmn : ((c1 : Nat), (n2 : Nat)) = ((n1 : Nat), (n2 : Nat)) := by
                have : c1 = n1 := by omega
                rw [this]
              rw [hmn] at hcmem
              exact hnext_notin hcmem
          have hsc : (setInsert (setErase (setErase s (c1, c2)) (n1, n2)) (c1, n2)).Perm
              ((processed ++ [(c1, n2)]) ++ rest) := by
            have h1 := setInsert_perm hfresh
            have h2 := h1.trans (hsb.cons (c1, n2))
            have h3 := h2.trans List.perm_middle.symm
            rw [List.append_assoc]
            simpa using h3
          have hsc_sorted : SetSorted (setInsert (setErase (setErase s (c1, c2)) (n1, n2)) (c1, n2)) :=
            setInsert_sorted hsb_sorted
          have hcnt_eq : ∀ i, countCover (processed ++ (c1, n2) :: rest) i
              = countCover (processed ++ (c1, c2) :: (n1, n2) :: rest) i := by
            intro i
            rw [countCover_append, countCover_append, countCover_cons, countCover_cons,
              countCover_cons]
            have hsplit := ite_inRange_split (a := c1) (b := c2) (c := n2) i hwf_cur.1 (by omega)
            rw [hm] at hsplit ⊢
            omega
          have hwf' : ∀ r ∈ (processed ++ [(c1, n2)]) ++ rest, r.1 ≤ r.2 ∧ r.2 ≤ N := by
            intro r hr
            rw [List.append_assoc] at hr
            simp only [List.singleton_append] at hr
            rcases List.mem_append.mp hr with hr | hr
            · exact hwf r (by simp [hr])
            · rcases List.mem_cons.mp hr with hr | hr
              · subst hr
                exact ⟨by omega, by omega⟩
              · exact hwf r (by simp [hr])
          have hcount' : ∀ i, i < N → countCover ((processed ++ [(c1, n2)]) ++ rest) i ≤ 1 := by
            intro i hi
            rw [List.append_assoc]
            simp only [List.singleton_append]
            rw [hcnt_eq i]
            exact hcount i hi
          have hlen' : rest.length ≤ fuel := by
            simp only [List.length_cons] at hlen
            omega
          obtain ⟨ih1, ih2, ih3, ih4, ih5, ih6⟩ :=
            ih rest (processed ++ [(c1, n2)])
              (setInsert (setErase (setErase s (c1, c2)) (n1, n2)) (c1, n2)) N
              hlen' hsc hsc_sorted hwf' hcount'
          rcases hres : mergeAdjacent rest
              (setInsert (setErase (setErase s (c1, c2)) (n1, n2)) (c1, n2)) with ⟨tl, s2⟩
          rw [hres] at ih1 ih2 ih3 ih4 ih5 ih6
          have hE : mergeAdjacent ((c1, c2) :: (n1, n2) :: rest) s = ((c1, n2) :: tl, s2) := by
            simp only [mergeAdjacent, if_pos hm]
            rw [hres]
          rw [hE]
          refine ⟨?_, ih2, ?_, ?_, ?_, ?_⟩
          · have := ih1
            rw [List.append_assoc] at this
            simpa using this
          · intro i
            have e1 : (processed ++ [((c1 : Nat), (n2 : Nat))]) ++ tl
                = processed ++ (c1, n2) :: tl := by simp
            have e2 : (processed ++ [((c1 : Nat), (n2 : Nat))]) ++ rest
                = processed ++ (c1, n2) :: rest := by simp
            rw [← e1, ih3 i, e2]
            exact hcnt_eq i
          · intro r hr
            rcases List.mem_cons.mp hr with hr | hr
            · subst hr
              exact ⟨by omega, by omega⟩
            · exact ih4 r hr
          · intro c hc
            rcases List.mem_cons.mp hc with hc | hc
            · exfalso
              have h1 : c1 = c ∧ n2 = c := by
                have := hc.symm
                rw [Prod.mk.injEq] at this
                exact this
              apply hcur_ne_next
              rw [Prod.mk.injEq]
              omega
            · have := ih5 c hc
              simp [this]
          · intro hpos r hr
            rcases List.mem_cons.mp hr with hr | hr
            · subst hr
              have hc := hpos (c1, c2) (by simp)
              have hn := hpos (n1, n2) (by simp)
              simp only at hc hn
              omega
            · refine ih6 ?_ r hr
              intro r' hr'
              rw [List.append_assoc] at hr'
              simp only [List.singleton_append] at hr'
              rcases List.mem_append.mp hr' with hr' | hr'
              · exact hpos r' (by simp [hr'])
              · rcases List.mem_cons.mp hr' with hr' | hr'
                · subst hr'
                  have hc := hpos (c1, c2) (by simp)
                  have hn := hpos (n1, n2) (by simp)
                  simp only at hc hn
                  omega
                · exact hpos r' (by simp [hr'])
        · -- no merge: advance
          have hrearr : processed ++ (c1, c2) :: (n1, n2) :: rest
              = (processed ++ [(c1, c2)]) ++ (n1, n2) :: rest := by
            rw [List.append_assoc]
            simp
          have hlen' : ((n1, n2) :: rest).length ≤ fuel := by
            simp only [List.length_cons] at hlen ⊢
            omega
          obtain ⟨ih1, ih2, ih3, ih4, ih5, ih6⟩ :=
            ih ((n1, n2) :: rest) (processed ++ [(c1, c2)]) s N
              hlen' (hperm.trans (by rw [hrearr])) hsort
              (by rw [← hrearr]; exact hwf) (by rw [← hrearr]; exact hcount)
          rcases hres : mergeAdjacent ((n1, n2) :: rest) s with ⟨tl, s2⟩
          rw [hres] at ih1 ih2 ih3 ih4 ih5 ih6
          have hE : mergeAdjacent ((c1, c2) :: (n1, n2) :: rest) s = ((c1, c2) :: tl, s2) := by
            simp only [mergeAdjacent, if_neg hm]
            rw [hres]
          rw [hE]
          refine ⟨?_, ih2, ?_, ?_, ?_, ?_⟩
          · have := ih1
            rw [List.append_assoc] at this
            simpa using this
          · intro i
            have h3 := ih3 i
            rw [List.append_assoc, List.append_assoc] at h3
            simp only [List.singleton_append] at h3
            exact h3
          · intro r hr
            rcases List.mem_cons.mp hr with hr | hr
            · subst hr
              exact hwf_cur
            · exact ih4 r hr
          · intro c hc
            rcases List.mem_cons.mp hc with hc | hc
            · simp [hc]
            · exact List.mem_cons_of_mem _ (ih5 c hc)
          · intro hpos r hr
            rcases List.mem_cons.mp hr with hr | hr
            · subst hr
              exact hpos (c1, c2) (by simp)
            · exact ih6 (by rw [← hrearr]; exact hpos) r hr

/-- Erasing an absent range changes nothing. -/
theorem listErase_not_mem {l : List (Nat × Nat)} {x : Nat × Nat} (h : x ∉ l) :
    listErase l x = l := by
  induction l with
  | nil => rfl
  | cons y ys ih =>
    rw [listErase, if_neg (fun hc => h (by simp [hc])), ih (fun hc => h (by simp [hc]))]

/-- Erasing commutes with permutation. -/
theorem listErase_perm_congr {l l' : List (Nat × Nat)} {x : Nat × Nat}
    (h : l.Perm l') : (listErase l x).Perm (listErase l' x) := by
  by_cases hx : x ∈ l
  · have hx' : x ∈ l' := h.mem_iff.mp hx
    have h1 := listErase_perm hx
    have h2 := listErase_perm hx'
    exact (h1.symm.trans (h.trans h2)).cons_inv
  · have hx' : x ∉ l' := fun hc => hx (h.mem_iff.mpr hc)
    rw [listErase_not_mem hx, listErase_not_mem hx']
    exact h

/-- A member of a duplicate-free list is gone after erasing it. -/
theorem listErase_not_mem_self {l : List (Nat × Nat)} {x : Nat × Nat}
    (hnd : l.Nodup) (hx : x ∈ l) : x ∉ listErase l x := by
  have h1 := listErase_perm hx
  have h2 := h1.nodup hnd
  exact (List.nodup_cons.mp h2).1

/-- Construction yields numChunks chunks. -/
theorem getNumChunks_mk (n : Nat) : (mkMemoryPool n).getNumChunks = n := by
  show n * DEFAULT_CHUNK_SIZE / DEFAULT_CHUNK_SIZE = n
  rw [DEFAULT_CHUNK_SIZE]
  omega

/-- A byte request of at least one byte needs at least one chunk. -/
theorem getRequiredChunks_pos {n : Nat} (h : 1 ≤ n) : 1 ≤ MemoryPool.getRequiredChunks n := by
  rw [MemoryPool.getRequiredChunks, DEFAULT_CHUNK_SIZE]
  split <;> omega

/-- The base invariant holds after construction. -/
theorem baseInvariant_mk (n : Nat) : BaseInvariant (mkMemoryPool n) := by
  have hN := getNumChunks_mk n
  refine ⟨?_, ?_, ?_, ?_, ?_, ?_, ?_⟩
  · intro r hr
    rw [show (mkMemoryPool n).freeList = [(0, n)] from rfl, List.mem_singleton] at hr
    subst hr
    simp [hN]
  · intro e he
    simp [mkMemoryPool] at he
  · simp [mkMemoryPool, KeysSorted]
  · simp [mkMemoryPool, SetSorted]
  · exact List.Perm.refl _
  · intro i hi
    have h1 : (mkMemoryPool n).freeList = [(0, n)] := rfl
    have h2 : (mkMemoryPool n).allocations.map Prod.snd = [] := rfl
    rw [h1, h2, countCover_cons]
    have h0 : countCover ([] : List (Nat × Nat)) i = 0 := rfl
    rw [h0]
    split_ifs <;> simp
  · intro c hc hmem
    simp [mkMemoryPool] at hmem

/-- The chunk size is positive. -/
theorem chunk_size_pos : 0 < DEFAULT_CHUNK_SIZE := by
  rw [DEFAULT_CHUNK_SIZE]
  omega

/-- allocate preserves the base invariant (any request size, including
zero bytes). -/
theorem baseInvariant_allocate {p p' : MemoryPool} {n : Nat} {a : Option Nat}
    (hp : BaseInvariant p) (h : p.allocate n = (a, p')) : BaseInvariant p' := by
  obtain ⟨hfree, halloc, hkeys, hsort, hperm, hcount, hsep⟩ := hp
  simp only [MemoryPool.allocate] at h
  split_ifs at h with hemp
  · injection h with h1 h2
    subst h2
    exact ⟨hfree, halloc, hkeys, hsort, hperm, hcount, hsep⟩
  · cases hlb : setLowerBound p.freeSetBySize (MemoryPool.getRequiredChunks n) with
    | none =>
      simp only [hlb] at h
      injection h with h1 h2
      subst h2
      exact ⟨hfree, halloc, hkeys, hsort, hperm, hcount, hsep⟩
    | some r =>
      obtain ⟨b, e⟩ := r
      simp only [hlb] at h
      have hmemset : ((b, e)) ∈ p.freeSetBySize := setLowerBound_mem hlb
      have hmemlist : ((b, e)) ∈ p.freeList := hperm.mem_iff.mp hmemset
      have hsize : MemoryPool.getRequiredChunks n ≤ e - b := setLowerBound_size hlb
      have hwfr1 : b ≤ e := (hfree (b, e) hmemlist).1
      have hwfr2 : e ≤ p.getNumChunks := (hfree (b, e) hmemlist).2
      have hnodupset : p.freeSetBySize.Nodup := setSorted_nodup hsort
      have hnoduplist : p.freeList.Nodup := hperm.nodup hnodupset
      have hfl_perm : p.freeList.Perm ((b, e) :: listErase p.freeList (b, e)) :=
        listErase_perm hmemlist
      split_ifs at h with hsz
      · -- exact fit: the range leaves both indices
        injection h with h1 h2
        have hfl : p'.freeList = listErase p.freeList (b, e) := by rw [← h2]
        have hfs : p'.freeSetBySize = setErase p.freeSetBySize (b, e) := by rw [← h2]
        have hal : p'.allocations
            = mapInsert p.allocations (b * DEFAULT_CHUNK_SIZE)
                (b, b + MemoryPool.getRequiredChunks n) := by rw [← h2]
        have hNC : p'.getNumChunks = p.getNumChunks := by
          rw [← h2]
          rfl
        refine ⟨?_, ?_, ?_, ?_, ?_, ?_, ?_⟩
        · intro x hx
          rw [hfl] at hx
          rw [hNC]
          exact hfree x ((listErase_sublist _ _).subset hx)
        · intro x hx
          rw [hal] at hx
          rw [hNC]
          rcases mem_mapInsert hx with hx | hx
          · subst hx
            exact ⟨show b ≤ b + MemoryPool.getRequiredChunks n by omega,
              show b + MemoryPool.getRequiredChunks n ≤ p.getNumChunks by omega, rfl⟩
          · exact halloc x hx
        · rw [hal]
          exact mapInsert_keysSorted hkeys
        · rw [hfs]
          exact setErase_sorted hsort
        · rw [hfs, hfl, setErase_eq_listErase]
          exact listErase_perm_congr hperm
        · intro i hi
          rw [hNC] at hi
          rw [hfl, hal]
          have hdec : countCover p.freeList i
              = countCover (listErase p.freeList (b, e)) i
                + (if inRange (b, e) i then 1 else 0) := by
            rw [countCover_perm i hfl_perm, countCover_cons]
          have heq : ((b : Nat), b + MemoryPool.getRequiredChunks n) = ((b : Nat), (e : Nat)) := by
            rw [Prod.mk.injEq]
            omega
          rw [heq]
          have hins := countSnd_mapInsert_le (m := p.allocations)
            (a := b * DEFAULT_CHUNK_SIZE) (r := ((b : Nat), (e : Nat))) i hkeys
          have hc := hcount i hi
          omega
        · intro c hc hcm
          rw [hfl] at hc
          rw [hal] at hcm
          rcases mem_mapInsert hcm with hcm | hcm
          · rw [Prod.mk.injEq, Prod.mk.injEq] at hcm
            have hcb : c = b := Nat.eq_of_mul_eq_mul_right chunk_size_pos hcm.1
            have hk0 : MemoryPool.getRequiredChunks n = 0 := by omega
            have hbe : ((b : Nat), (e : Nat)) = ((c : Nat), (c : Nat)) := by
              rw [Prod.mk.injEq]
              omega
            rw [hbe] at hmemlist hc
            exact listErase_not_mem_self hnoduplist hmemlist hc
          · exact hsep c ((listErase_sublist _ _).subset hc) hcm
      · -- shrink in place: the node keeps the tail of the range
        injection h with h1 h2
        have hbk_lt : b + MemoryPool.getRequiredChunks n < e := by omega
        have hfl : p'.freeList
            = listReplace p.freeList (b, e) (b + MemoryPool.getRequiredChunks n, e) := by
          rw [← h2]
        have hfs : p'.freeSetBySize
            = setInsert (setErase p.freeSetBySize (b, e))
                (b + MemoryPool.getRequiredChunks n, e) := by rw [← h2]
        have hal : p'.allocations
            = mapInsert p.allocations (b * DEFAULT_CHUNK_SIZE)
                (b, b + MemoryPool.getRequiredChunks n) := by rw [← h2]
        have hNC : p'.getNumChunks = p.getNumChunks := by
          rw [← h2]
          rfl
        have herase_perm : (setErase p.freeSetBySize (b, e)).Perm (listErase p.freeList (b, e)) := by
          rw [setErase_eq_listErase]
          exact listErase_perm_congr hperm
        have hfresh : (b + MemoryPool.getRequiredChunks n, e) ∉ setErase p.freeSetBySize (b, e) := by
          intro hcmem
          have hmem2 : (b + MemoryPool.getRequiredChunks n, e) ∈ listErase p.freeList (b, e) :=
            herase_perm.mem_iff.mp hcmem
          have hin1 : inRange (b, e) (b + MemoryPool.getRequiredChunks n) = true := by
            simp only [inRange, decide_eq_true_eq]
            omega
          have hin2 : inRange (b + MemoryPool.getRequiredChunks n, e)
              (b + MemoryPool.getRequiredChunks n) = true := by
            simp only [inRange, decide_eq_true_eq]
            omega
          have h2c : 2 ≤ countCover p.freeList (b + MemoryPool.getRequiredChunks n) := by
            rw [countCover_perm _ hfl_perm, countCover_cons, if_pos hin1]
            have := countCover_pos hmem2 hin2
            omega
          have hc := hcount (b + MemoryPool.getRequiredChunks n) (by omega)
          omega
        have hrep_perm : (listReplace p.freeList (b, e) (b + MemoryPool.getRequiredChunks n, e)).Perm
            ((b + MemoryPool.getRequiredChunks n, e) :: listErase p.freeList (b, e)) :=
          listReplace_perm _ hmemlist
        refine ⟨?_, ?_, ?_, ?_, ?_, ?_, ?_⟩
        · intro x hx
          rw [hfl] at hx
          rw [hNC]
          rcases mem_listReplace hx with hx | hx
          · subst hx
            exact ⟨show b + MemoryPool.getRequiredChunks n ≤ e by omega,
              show e ≤ p.getNumChunks by omega⟩
          · exact hfree x hx
        · intro x hx
          rw [hal] at hx
          rw [hNC]
          rcases mem_mapInsert hx with hx | hx
          · subst hx
            exact ⟨show b ≤ b + MemoryPool.getRequiredChunks n by omega,
              show b + MemoryPool.getRequiredChunks n ≤ p.getNumChunks by omega, rfl⟩
          · exact halloc x hx
        · rw [hal]
          exact mapInsert_keysSorted hkeys
        · rw [hfs]
          exact setInsert_sorted (setErase_sorted hsort)
        · rw [hfs, hfl]
          exact ((setInsert_perm hfresh).trans (herase_perm.cons _)).trans hrep_perm.symm
        · intro i hi
          rw [hNC] at hi
          rw [hfl, hal]
          have hdec : countCover p.freeList i
              = countCover (listErase p.freeList (b, e)) i
                + (if inRange (b, e) i then 1 else 0) := by
            rw [countCover_perm i hfl_perm, countCover_cons]
          have hdec2 : countCover
              (listReplace p.freeList (b, e) (b + MemoryPool.getRequiredChunks n, e)) i
              = countCover (listErase p.freeList (b, e)) i
                + (if inRange (b + MemoryPool.getRequiredChunks n, e) i then 1 else 0) := by
            rw [countCover_perm i hrep_perm, countCover_cons]
          have hins := countSnd_mapInsert_le (m := p.allocations)
            (a := b * DEFAULT_CHUNK_SIZE) (r := (b, b + MemoryPool.getRequiredChunks n)) i hkeys
          have hsplit := ite_inRange_split (a := b) (b := b + MemoryPool.getRequiredChunks n)
            (c := e) i (by omega) (by omega)
          have hc := hcount i hi
          omega
        · intro c hc hcm
          rw [hfl] at hc
          rw [hal] at hcm
          rcases mem_listReplace hc with hc | hc
          · rw [Prod.mk.injEq] at hc
            omega
          · rcases mem_mapInsert hcm with hcm | hcm
            · rw [Prod.mk.injEq, Prod.mk.injEq] at hcm
              have hcb : c = b := Nat.eq_of_mul_eq_mul_right chunk_size_pos hcm.1
              have hk0 : MemoryPool.getRequiredChunks n = 0 := by omega
              rw [hk0] at hlb
              have hnoe := no_empty_of_lowerBound_zero hsort hlb (by simp; omega)
              exact hnoe c (hperm.mem_iff.mpr hc)
            · exact hsep c hc hcm

/-- deallocate preserves the base invariant. -/
theorem baseInvariant_deallocate {p p' : MemoryPool} {d : Nat}
    (hp : BaseInvariant p) (h : p.deallocate d = some p') : BaseInvariant p' := by
  obtain ⟨hfree, halloc, hkeys, hsort, hperm, hcount, hsep⟩ := hp
  simp only [MemoryPool.deallocate] at h
  cases hlk : mapLookup p.allocations d with
  | none => simp [hlk] at h
  | some r =>
    obtain ⟨b, e⟩ := r
    simp only [hlk] at h
    rcases hM : mergeAdjacent (freeListInsertPos p.freeList (b, e))
        (setInsert p.freeSetBySize (b, e)) with ⟨fl2, s2⟩
    rw [hM] at h
    simp only [Option.some.injEq] at h
    have hent : ((d, ((b : Nat), (e : Nat)))) ∈ p.allocations := mapLookup_mem hlk
    have hb_le : b ≤ e := (halloc (d, (b, e)) hent).1
    have he_le : e ≤ p.getNumChunks := (halloc (d, (b, e)) hent).2.1
    have hdkey : d = b * DEFAULT_CHUNK_SIZE := (halloc (d, (b, e)) hent).2.2
    have hsnd_mem : (((b : Nat), (e : Nat))) ∈ p.allocations.map Prod.snd :=
      List.mem_map_of_mem Prod.snd hent
    have hfresh : (((b : Nat), (e : Nat))) ∉ p.freeList := by
      intro hc
      by_cases hbe : b < e
      · have hin : inRange (b, e) b = true := by
          simp only [inRange, decide_eq_true_eq]
          omega
        have h1 := countCover_pos hc hin
        have h2 := countCover_pos hsnd_mem hin
        have hcnt := hcount b (by omega)
        omega
      · have hbee : e = b := by omega
        subst hbee
        apply hsep e hc
        rw [← hdkey]
        exact hent
    have hfresh_set : (((b : Nat), (e : Nat))) ∉ p.freeSetBySize :=
      fun hc => hfresh (hperm.mem_iff.mp hc)
    have hins_perm : (freeListInsertPos p.freeList (b, e)).Perm ((b, e) :: p.freeList) :=
      freeListInsertPos_perm _ _
    have hset1_perm : (setInsert p.freeSetBySize (b, e)).Perm
        ([] ++ freeListInsertPos p.freeList (b, e)) := by
      simp only [List.nil_append]
      exact ((setInsert_perm hfresh_set).trans (hperm.cons _)).trans hins_perm.symm
    have hset1_sorted : SetSorted (setInsert p.freeSetBySize (b, e)) := setInsert_sorted hsort
    have hwf1 : ∀ x ∈ [] ++ freeListInsertPos p.freeList (b, e),
        x.1 ≤ x.2 ∧ x.2 ≤ p.getNumChunks := by
      intro x hx
      simp only [List.nil_append] at hx
      rcases List.mem_cons.mp (hins_perm.mem_iff.mp hx) with hx | hx
      · subst hx
        exact ⟨hb_le, he_le⟩
      · exact hfree x hx
    have hcount1 : ∀ i, i < p.getNumChunks →
        countCover ([] ++ freeListInsertPos p.freeList (b, e)) i ≤ 1 := by
      intro i hi
      simp only [List.nil_append]
      rw [countCover_perm i hins_perm, countCover_cons]
      have hcnt := hcount i hi
      by_cases hir : inRange (b, e) i = true
      · have h2 := countCover_pos hsnd_mem hir
        rw [if_pos hir]
        omega
      · rw [if_neg hir]
        omega
    obtain ⟨m1, m2, m3, m4, m5, m6⟩ := mergeAdjacent_spec
      (freeListInsertPos p.freeList (b, e)).length
      (freeListInsertPos p.freeList (b, e)) [] (setInsert p.freeSetBySize (b, e))
      p.getNumChunks (le_refl _) hset1_perm hset1_sorted hwf1 hcount1
    rw [hM] at m1 m2 m3 m4 m5 m6
    simp only [List.nil_append] at m1 m2 m3 m4 m5 m6
    have hfl : p'.freeList = fl2 := by rw [← h]
    have hfs : p'.freeSetBySize = s2 := by rw [← h]
    have hal : p'.allocations = mapErase p.allocations d := by rw [← h]
    have hNC : p'.getNumChunks = p.getNumChunks := by
      rw [← h]
      rfl
    refine ⟨?_, ?_, ?_, ?_, ?_, ?_, ?_⟩
    · intro x hx
      rw [hfl] at hx
      rw [hNC]
      exact m4 x hx
    · intro x hx
      rw [hal] at hx
      rw [hNC]
      exact halloc x ((mapErase_sublist _ _).subset hx)
    · rw [hal]
      exact mapErase_keysSorted hkeys
    · rw [hfs]
      exact m2
    · rw [hfs, hfl]
      exact m1
    · intro i hi
      rw [hNC] at hi
      rw [hfl, hal]
      have h3 := m3 i
      rw [countCover_perm i hins_perm, countCover_cons] at h3
      have hme := countSnd_mapErase (m := p.allocations) (a := d) (r := (b, e)) i hlk
      have hcnt := hcount i hi
      omega
    · intro c hc hcm
      rw [hfl] at hc
      rw [hal] at hcm
      have hc1 : ((c, c)) ∈ freeListInsertPos p.freeList (b, e) := m5 c hc
      rcases List.mem_cons.mp (hins_perm.mem_iff.mp hc1) with hc2 | hc2
      · have hcb : c = b ∧ c = e := by
          rw [Prod.mk.injEq] at hc2
          exact hc2
        have hkeygone := mapLookup_eq_none_iff.mp
          (mapErase_lookup_self (m := p.allocations) (a := d) hkeys)
        exact hkeygone (c * DEFAULT_CHUNK_SIZE, (c, c)) hcm
          (show c * DEFAULT_CHUNK_SIZE = d by rw [hdkey, hcb.1])
      · exact hsep c hc2 ((mapErase_sublist _ _).subset hcm)

/-- Every reachable pool satisfies the base invariant. -/
theorem reachable_baseInvariant {p : MemoryPool} (h : p.Reachable) : BaseInvariant p := by
  induction h with
  | construct n => exact baseInvariant_mk n
  | allocStep p p' n a hr hstep ih => exact baseInvariant_allocate ih hstep
  | deallocStep p p' a hr hstep ih => exact baseInvariant_deallocate ih hstep

/-- Case analysis of allocate: either it fails and leaves the pool
unchanged, or the lower bound picked a range (b, e) that is consumed
exactly or shrunk in place. -/
theorem allocate_cases {p p' : MemoryPool} {n : Nat} {a : Option Nat}
    (h : p.allocate n = (a, p')) :
    (a = none ∧ p' = p ∧
      (p.freeList = [] ∨
        setLowerBound p.freeSetBySize (MemoryPool.getRequiredChunks n) = none)) ∨
    ∃ b e, setLowerBound p.freeSetBySize (MemoryPool.getRequiredChunks n) = some (b, e) ∧
      p.freeList ≠ [] ∧
      a = some (b * DEFAULT_CHUNK_SIZE) ∧
      p'.poolSize = p.poolSize ∧
      p'.allocations = mapInsert p.allocations (b * DEFAULT_CHUNK_SIZE)
        (b, b + MemoryPool.getRequiredChunks n) ∧
      ((e - b = MemoryPool.getRequiredChunks n ∧
          p'.freeList = listErase p.freeList (b, e) ∧
          p'.freeSetBySize = setErase p.freeSetBySize (b, e)) ∨
        (¬(e - b = MemoryPool.getRequiredChunks n) ∧
          p'.freeList = listReplace p.freeList (b, e) (b + MemoryPool.getRequiredChunks n, e) ∧
          p'.freeSetBySize = setInsert (setErase p.freeSetBySize (b, e))
            (b + MemoryPool.getRequiredChunks n, e))) := by
  simp only [MemoryPool.allocate] at h
  split_ifs at h with hemp
  · injection h with h1 h2
    exact Or.inl ⟨h1.symm, h2.symm, Or.inl hemp⟩
  · cases hlb : setLowerBound p.freeSetBySize (MemoryPool.getRequiredChunks n) with
    | none =>
      simp only [hlb] at h
      injection h with h1 h2
      exact Or.inl ⟨h1.symm, h2.symm, Or.inr rfl⟩
    | some r =>
      obtain ⟨b, e⟩ := r
      simp only [hlb] at h
      refine Or.inr ⟨b, e, rfl, hemp, ?_⟩
      split_ifs at h with hsz
      · injection h with h1 h2
        exact ⟨h1.symm, by rw [← h2], by rw [← h2], Or.inl ⟨hsz, by rw [← h2], by rw [← h2]⟩⟩
      · injection h with h1 h2
        exact ⟨h1.symm, by rw [← h2], by rw [← h2], Or.inr ⟨hsz, by rw [← h2], by rw [← h2]⟩⟩

/-- Case analysis of a successful deallocate. -/
theorem deallocate_cases {p p' : MemoryPool} {d : Nat}
    (h : p.deallocate d = some p') :
    ∃ b e fl2 s2, mapLookup p.allocations d = some (b, e) ∧
      mergeAdjacent (freeListInsertPos p.freeList (b, e))
        (setInsert p.freeSetBySize (b, e)) = (fl2, s2) ∧
      p'.freeList = fl2 ∧ p'.freeSetBySize = s2 ∧
      p'.allocations = mapErase p.allocations d ∧
      p'.poolSize = p.poolSize := by
  simp only [MemoryPool.deallocate] at h
  cases hlk : mapLookup p.allocations d with
  | none => simp [hlk] at h
  | some r =>
    obtain ⟨b, e⟩ := r
    simp only [hlk] at h
    rcases hM : mergeAdjacent (freeListInsertPos p.freeList (b, e))
        (setInsert p.freeSetBySize (b, e)) with ⟨fl2, s2⟩
    rw [hM] at h
    simp only [Option.some.injEq] at h
    exact ⟨b, e, fl2, s2, rfl, hM, by rw [← h], by rw [← h], by rw [← h], by rw [← h]⟩

/-- A failed allocate leaves the pool unchanged. -/
theorem allocate_none {p p' : MemoryPool} {n : Nat}
    (h : p.allocate n = (none, p')) : p' = p := by
  rcases allocate_cases h with ⟨-, hp, -⟩ | ⟨b, e, -, -, ha, -⟩
  · exact hp
  · cases ha

/-- allocate never changes the buffer size. -/
theorem allocate_poolSize {p p' : MemoryPool} {n : Nat} {a : Option Nat}
    (h : p.allocate n = (a, p')) : p'.poolSize = p.poolSize := by
  rcases allocate_cases h with ⟨-, hp, -⟩ | ⟨b, e, -, -, -, hps, -⟩
  · rw [hp]
  · exact hps

/-- The strong invariant holds after constructing a non-empty pool. -/
theorem strongInvariant_mk {n : Nat} (h : 1 ≤ n) : StrongInvariant (mkMemoryPool n) := by
  refine ⟨baseInvariant_mk n, ?_, ?_, ?_⟩
  · intro r hr
    rw [show (mkMemoryPool n).freeList = [(0, n)] from rfl, List.mem_singleton] at hr
    subst hr
    simpa using h
  · intro x hx
    simp [mkMemoryPool] at hx
  · intro i hi
    rw [getNumChunks_mk] at hi
    have h1 : (mkMemoryPool n).freeList = [(0, n)] := rfl
    have h2 : (mkMemoryPool n).allocations.map Prod.snd = [] := rfl
    rw [h1, h2, countCover_cons]
    have h0 : countCover ([] : List (Nat × Nat)) i = 0 := rfl
    rw [h0]
    have hin : inRange (0, n) i = true := by
      simp only [inRange, decide_eq_true_eq]
      omega
    rw [if_pos hin]

/-- allocate with a request of at least one byte preserves the strong
invariant. -/
theorem strongInvariant_allocate {p p' : MemoryPool} {n : Nat} {a : Option Nat}
    (hp : StrongInvariant p) (hn : 1 ≤ n) (h : p.allocate n = (a, p')) :
    StrongInvariant p' := by
  obtain ⟨hbase, hfpos, hapos, hcover⟩ := hp
  have hbase' := baseInvariant_allocate hbase h
  obtain ⟨hfree, halloc, hkeys, hsort, hperm, hcount, hsep⟩ := hbase
  rcases allocate_cases h with ⟨-, hpp, -⟩ | ⟨b, e, hlb, hemp, ha, hps, hal, hbr⟩
  · subst hpp
    exact ⟨hbase', hfpos, hapos, hcover⟩
  · have hk1 : 1 ≤ MemoryPool.getRequiredChunks n := getRequiredChunks_pos hn
    have hmemset : ((b, e)) ∈ p.freeSetBySize := setLowerBound_mem hlb
    have hmemlist : ((b, e)) ∈ p.freeList := hperm.mem_iff.mp hmemset
    have hsize := setLowerBound_size hlb
    have hwfr1 : b ≤ e := (hfree (b, e) hmemlist).1
    have hwfr2 : e ≤ p.getNumChunks := (hfree (b, e) hmemlist).2
    have hble : b < e := by omega
    have hNC : p'.getNumChunks = p.getNumChunks := by
      rw [MemoryPool.getNumChunks, MemoryPool.getNumChunks, hps]
    have hfl_perm := listErase_perm hmemlist
    have hkey_fresh : mapLookup p.allocations (b * DEFAULT_CHUNK_SIZE) = none := by
      cases hlo : mapLookup p.allocations (b * DEFAULT_CHUNK_SIZE) with
      | none => rfl
      | some r0 =>
        exfalso
        have hent := mapLookup_mem hlo
        have hkeyeq : b * DEFAULT_CHUNK_SIZE = r0.1 * DEFAULT_CHUNK_SIZE :=
          (halloc (b * DEFAULT_CHUNK_SIZE, r0) hent).2.2
        have hr0b : r0.1 = b := (Nat.eq_of_mul_eq_mul_right chunk_size_pos hkeyeq).symm
        have hr0pos : r0.1 < r0.2 := hapos (b * DEFAULT_CHUNK_SIZE, r0) hent
        have hin : inRange r0 b = true := by
          simp only [inRange, decide_eq_true_eq]
          omega
        have hsnd : r0 ∈ p.allocations.map Prod.snd := List.mem_map_of_mem Prod.snd hent
        have h1 := countCover_pos hsnd hin
        have hinf : inRange (b, e) b = true := by
          simp only [inRange, decide_eq_true_eq]
          omega
        have h2 := countCover_pos hmemlist hinf
        have hc := hcount b (by omega)
        omega
    rcases hbr with ⟨hsz, hfl, hfs⟩ | ⟨hsz, hfl, hfs⟩
    · refine ⟨hbase', ?_, ?_, ?_⟩
      · intro x hx
        rw [hfl] at hx
        exact hfpos x ((listErase_sublist _ _).subset hx)
      · intro x hx
        rw [hal] at hx
        rcases mem_mapInsert hx with hx | hx
        · subst hx
          exact show b < b + MemoryPool.getRequiredChunks n by omega
        · exact hapos x hx
      · intro i hi
        rw [hNC] at hi
        rw [hfl, hal]
        have hdec : countCover p.freeList i
            = countCover (listErase p.freeList (b, e)) i
              + (if inRange (b, e) i then 1 else 0) := by
          rw [countCover_perm i hfl_perm, countCover_cons]
        have heq : ((b : Nat), b + MemoryPool.getRequiredChunks n) = ((b : Nat), (e : Nat)) := by
          rw [Prod.mk.injEq]
          omega
        rw [heq]
        have hins := countSnd_mapInsert_fresh (r := ((b : Nat), (e : Nat))) i hkey_fresh
        have hcov := hcover i hi
        omega
    · have hbk_lt : b + MemoryPool.getRequiredChunks n < e := by omega
      have hrep_perm := listReplace_perm (b + MemoryPool.getRequiredChunks n, e) hmemlist
      refine ⟨hbase', ?_, ?_, ?_⟩
      · intro x hx
        rw [hfl] at hx
        rcases mem_listReplace hx with hx | hx
        · subst hx
          exact show b + MemoryPool.getRequiredChunks n < e by omega
        · exact hfpos x hx
      · intro x hx
        rw [hal] at hx
        rcases mem_mapInsert hx with hx | hx
        · subst hx
          exact show b < b + MemoryPool.getRequiredChunks n by omega
        · exact hapos x hx
      · intro i hi
        rw [hNC] at hi
        rw [hfl, hal]
        have hdec : countCover p.freeList i
            = countCover (listErase p.freeList (b, e)) i
              + (if inRange (b, e) i then 1 else 0) := by
          rw [countCover_perm i hfl_perm, countCover_cons]
        have hdec2 : countCover
            (listReplace p.freeList (b, e) (b + MemoryPool.getRequiredChunks n, e)) i
            = countCover (listErase p.freeList (b, e)) i
              + (if inRange (b + MemoryPool.getRequiredChunks n, e) i then 1 else 0) := by
          rw [countCover_perm i hrep_perm, countCover_cons]
        have hins := countSnd_mapInsert_fresh
          (r := ((b : Nat), b + MemoryPool.getRequiredChunks n)) i hkey_fresh
        have hsplit := ite_inRange_split (a := b) (b := b + MemoryPool.getRequiredChunks n)
          (c := e) i (by omega) (by omega)
        have hcov := hcover i hi
        omega

/-- deallocate preserves the strong invariant. -/
theorem strongInvariant_deallocate {p p' : MemoryPool} {d : Nat}
    (hp : StrongInvariant p) (h : p.deallocate d = some p') : StrongInvariant p' := by
  obtain ⟨hbase, hfpos, hapos, hcover⟩ := hp
  have hbase' := baseInvariant_deallocate hbase h
  obtain ⟨hfree, halloc, hkeys, hsort, hperm, hcount, hsep⟩ := hbase
  obtain ⟨b, e, fl2, s2, hlk, hM, hfl, hfs, hal, hps⟩ := deallocate_cases h
  have hent : ((d, ((b : Nat), (e : Nat)))) ∈ p.allocations := mapLookup_mem hlk
  have hb_lt : b < e := hapos (d, (b, e)) hent
  have he_le : e ≤ p.getNumChunks := (halloc (d, (b, e)) hent).2.1
  have hsnd_mem : (((b : Nat), (e : Nat))) ∈ p.allocations.map Prod.snd :=
    List.mem_map_of_mem Prod.snd hent
  have hfresh : (((b : Nat), (e : Nat))) ∉ p.freeList := by
    intro hc
    have hin : inRange (b, e) b = true := by
      simp only [inRange, decide_eq_true_eq]
      omega
    have h1 := countCover_pos hc hin
    have h2 := countCover_pos hsnd_mem hin
    have hcnt := hcount b (by omega)
    omega
  have hfresh_set : (((b : Nat), (e : Nat))) ∉ p.freeSetBySize :=
    fun hc => hfresh (hperm.mem_iff.mp hc)
  have hins_perm : (freeListInsertPos p.freeList (b, e)).Perm ((b, e) :: p.freeList) :=
    freeListInsertPos_perm _ _
  have hset1_perm : (setInsert p.freeSetBySize (b, e)).Perm
      ([] ++ freeListInsertPos p.freeList (b, e)) := by
    simp only [List.nil_append]
    exact ((setInsert_perm hfresh_set).trans (hperm.cons _)).trans hins_perm.symm
  have hset1_sorted : SetSorted (setInsert p.freeSetBySize (b, e)) := setInsert_sorted hsort
  have hwf1 : ∀ x ∈ [] ++ freeListInsertPos p.freeList (b, e),
      x.1 ≤ x.2 ∧ x.2 ≤ p.getNumChunks := by
    intro x hx
    simp only [List.nil_append] at hx
    rcases List.mem_cons.mp (hins_perm.mem_iff.mp hx) with hx | hx
    · subst hx
      exact ⟨by omega, he_le⟩
    · exact hfree x hx
  have hcount1 : ∀ i, i < p.getNumChunks →
      countCover ([] ++ freeListInsertPos p.freeList (b, e)) i ≤ 1 := by
    intro i hi
    simp only [List.nil_append]
    rw [countCover_perm i hins_perm, countCover_cons]
    have hcnt := hcount i hi
    by_cases hir : inRange (b, e) i = true
    · have h2 := countCover_pos hsnd_mem hir
      rw [if_pos hir]
      omega
    · rw [if_neg hir]
      omega
  obtain ⟨m1, m2, m3, m4, m5, m6⟩ := mergeAdjacent_spec
    (freeListInsertPos p.freeList (b, e)).length
    (freeListInsertPos p.freeList (b, e)) [] (setInsert p.freeSetBySize (b, e))
    p.getNumChunks (le_refl _) hset1_perm hset1_sorted hwf1 hcount1
  rw [hM] at m3 m6
  simp only [List.nil_append] at m3 m6
  have hNC : p'.getNumChunks = p.getNumChunks := by
    rw [MemoryPool.getNumChunks, MemoryPool.getNumChunks, hps]
  refine ⟨hbase', ?_, ?_, ?_⟩
  · intro x hx
    rw [hfl] at hx
    refine m6 ?_ x hx
    intro r hr
    rcases List.mem_cons.mp (hins_perm.mem_iff.mp hr) with hr | hr
    · subst hr
      exact hb_lt
    · exact hfpos r hr
  · intro x hx
    rw [hal] at hx
    exact hapos x ((mapErase_sublist _ _).subset hx)
  · intro i hi
    rw [hNC] at hi
    rw [hfl, hal]
    have h3 := m3 i
    rw [countCover_perm i hins_perm, countCover_cons] at h3
    have hme := countSnd_mapErase (m := p.allocations) (a := d) (r := ((b : Nat), (e : Nat))) i hlk
    have hcov := hcover i hi
    omega

/-- Every pool reachable with positive requests satisfies the strong
invariant. -/
theorem reachablePos_strongInvariant {p : MemoryPool} (h : p.ReachablePos) :
    StrongInvariant p := by
  induction h with
  | construct n hn => exact strongInvariant_mk hn
  | allocStep p p' n a hr hn hstep ih => exact strongInvariant_allocate ih hn hstep
  | deallocStep p p' a hr hstep ih => exact strongInvariant_deallocate ih hstep

/-- The total size of a list of bounded ranges equals the sum of its
pointwise cover counts over the chunk space. -/
theorem sum_sizes_eq_sum_counts (l : List (Nat × Nat)) (N : Nat)
    (hwf : ∀ r ∈ l, r.1 ≤ r.2 ∧ r.2 ≤ N) :
    (l.map (fun r => r.2 - r.1)).sum = ∑ i in Finset.range N, countCover l i := by
  induction l with
  | nil => simp [countCover]
  | cons r l ih =>
    have hr := hwf r (by simp)
    have hl : ∀ x ∈ l, x.1 ≤ x.2 ∧ x.2 ≤ N := fun x hx => hwf x (by simp [hx])
    simp only [List.map_cons, List.sum_cons]
    rw [ih hl]
    have hind : (∑ i in Finset.range N, if inRange r i then (1 : Nat) else 0) = r.2 - r.1 := by
      obtain ⟨b, e⟩ := r
      have h1 : ∀ i, (if inRange (b, e) i then (1 : Nat) else 0)
          = if i ∈ Finset.Ico b e then (1 : Nat) else 0 := by
        intro i
        simp [inRange, Finset.mem_Ico]
      rw [Finset.sum_congr rfl (fun i _ => h1 i), Finset.sum_ite_mem]
      have h2 : Finset.range N ∩ Finset.Ico b e = Finset.Ico b e := by
        rw [Finset.inter_eq_right]
        intro i hi
        rw [Finset.mem_Ico] at hi
        rw [Finset.mem_range]
        have := hr.2
        simp only at this
        omega
      rw [h2]
      simp [Nat.card_Ico]
    rw [Finset.sum_congr rfl (fun i _ => countCover_cons r l i), Finset.sum_add_distrib, hind]
    omega

/-- Conservation follows from the strong invariant. -/
theorem conservation_of_strong {p : MemoryPool} (hp : StrongInvariant p) :
    p.getNumFreeChunks + p.getNumAllocatedChunks = p.getNumChunks := by
  obtain ⟨⟨hfree, halloc, -, -, -, -, -⟩, -, -, hcover⟩ := hp
  have h1 : p.getNumFreeChunks
      = ∑ i in Finset.range p.getNumChunks, countCover p.freeList i :=
    sum_sizes_eq_sum_counts _ _ hfree
  have h2 : p.getNumAllocatedChunks
      = ∑ i in Finset.range p.getNumChunks, countCover (p.allocations.map Prod.snd) i := by
    have hmm : (p.allocations.map (fun x => x.2.2 - x.2.1)).sum
        = ((p.allocations.map Prod.snd).map (fun r => r.2 - r.1)).sum := by
      rw [List.map_map]
      rfl
    rw [MemoryPool.getNumAllocatedChunks, hmm]
    refine sum_sizes_eq_sum_counts _ _ ?_
    intro r hr
    obtain ⟨x, hx, hxr⟩ := List.mem_map.mp hr
    subst hxr
    exact ⟨(halloc x hx).1, (halloc x hx).2.1⟩
  rw [h1, h2, ← Finset.sum_add_distrib,
    Finset.sum_congr rfl (fun i hi => hcover i (Finset.mem_range.mp hi))]
  simp

/-- The probing loop of MultiPool::allocate preserves the strong
invariant of every pool. -/
theorem allocateOnPools_strong {n : Nat} (hn : 1 ≤ n) :
    ∀ (pools : List MemoryPool) (most : Nat) (ps' : List MemoryPool) (i off : Nat),
      allocateOnPools n pools most = Sum.inl (ps', i, off) →
      (∀ q ∈ pools, StrongInvariant q) → ∀ q ∈ ps', StrongInvariant q := by
  intro pools
  induction pools with
  | nil =>
    intro most ps' i off h hall
    simp [allocateOnPools] at h
  | cons pool ps ih =>
    intro most ps' i off h hall
    simp only [allocateOnPools] at h
    rcases hstep : pool.allocate n with ⟨optoff, pool'⟩
    rw [hstep] at h
    cases optoff with
    | some off0 =>
      simp only [Sum.inl.injEq, Prod.mk.injEq] at h
      obtain ⟨hps, -, -⟩ := h
      subst hps
      intro q hq
      rcases List.mem_cons.mp hq with hq | hq
      · subst hq
        exact strongInvariant_allocate (hall pool (by simp)) hn hstep
      · exact hall q (by simp [hq])
    | none =>
      cases hrec : allocateOnPools n ps
          (if most < pool.getNumChunks then pool.getNumChunks else most) with
      | inl res =>
        obtain ⟨ps2, i2, off2⟩ := res
        rw [hrec] at h
        simp only [Sum.inl.injEq, Prod.mk.injEq] at h
        obtain ⟨hps, -, -⟩ := h
        subst hps
        intro q hq
        rcases List.mem_cons.mp hq with hq | hq
        · subst hq
          exact hall q (by simp)
        · exact ih _ _ _ _ hrec (fun q' hq' => hall q' (by simp [hq'])) q hq
      | inr m =>
        rw [hrec] at h
        simp at h

/-- MultiPool::allocate with a positive request preserves the strong
invariant of every owned pool. -/
theorem multiPool_strong_allocate {mp mp' : MultiPool} {n : Nat} {a : Option (Nat × Nat)}
    (hall : ∀ q ∈ mp.pools, StrongInvariant q) (hn : 1 ≤ n)
    (h : mp.allocate n = (a, mp')) : ∀ q ∈ mp'.pools, StrongInvariant q := by
  simp only [MultiPool.allocate] at h
  cases hloop : allocateOnPools n mp.pools 0 with
  | inl res =>
    obtain ⟨ps', i, off⟩ := res
    rw [hloop] at h
    simp only [Prod.mk.injEq] at h
    obtain ⟨-, hmp⟩ := h
    rw [← hmp]
    exact allocateOnPools_strong hn mp.pools 0 ps' i off hloop hall
  | inr most =>
    simp only [hloop] at h
    rcases hnew : (mkMemoryPool (most * 2 + MemoryPool.getRequiredChunks n)).allocate n
      with ⟨optoff, pool'⟩
    rw [hnew] at h
    have hmkstrong : StrongInvariant (mkMemoryPool (most * 2 + MemoryPool.getRequiredChunks n)) :=
      strongInvariant_mk (by have := getRequiredChunks_pos hn; omega)
    have hpool' : StrongInvariant pool' := strongInvariant_allocate hmkstrong hn hnew
    cases optoff with
    | some off =>
      simp only [Prod.mk.injEq] at h
      obtain ⟨-, hmp⟩ := h
      rw [← hmp]
      intro q hq
      rcases List.mem_append.mp hq with hq | hq
      · exact hall q hq
      · rw [List.mem_singleton] at hq
        subst hq
        exact hpool'
    | none =>
      simp only [Prod.mk.injEq] at h
      obtain ⟨-, hmp⟩ := h
      rw [← hmp]
      intro q hq
      rcases List.mem_append.mp hq with hq | hq
      · exact hall q hq
      · rw [List.mem_singleton] at hq
        subst hq
        exact hpool'

/-- MultiPool::deallocate preserves the strong invariant of every owned
pool. -/
theorem multiPool_strong_deallocate {mp mp' : MultiPool} {d : Nat × Nat}
    (hall : ∀ q ∈ mp.pools, StrongInvariant q)
    (h : mp.deallocate d = some mp') : ∀ q ∈ mp'.pools, StrongInvariant q := by
  simp only [MultiPool.deallocate] at h
  cases hrl : routeLookup mp.allocations d with
  | none => simp [hrl] at h
  | some i =>
    simp only [hrl, List.get?_eq_getElem?] at h
    cases hget : mp.pools[i]? with
    | none => simp [hget] at h
    | some pool =>
      simp only [hget] at h
      cases hdel : pool.deallocate d.2 with
      | none => simp [hdel] at h
      | some pool' =>
        simp only [hdel, Option.some.injEq] at h
        rw [← h]
        intro q hq
        have hpoolmem : pool ∈ mp.pools := by
          have hg := hget
          rw [← List.get?_eq_getElem?] at hg
          exact List.get?_mem hg
        rcases List.mem_or_eq_of_mem_set hq with hq | hq
        · exact hall q hq
        · subst hq
          exact strongInvariant_deallocate (hall pool hpoolmem) hdel

/-- Every MultiPool reachable with positive requests has only pools
satisfying the strong invariant. -/
theorem multiReachable_strong {mp : MultiPool} (h : MultiPool.ReachablePos mp) :
    ∀ q ∈ mp.pools, StrongInvariant q := by
  induction h with
  | construct n hn =>
    intro q hq
    rw [show (mkMultiPool n).pools = [mkMemoryPool n] from rfl, List.mem_singleton] at hq
    subst hq
    exact strongInvariant_mk hn
  | allocStep mp mp' n a hr hn hstep ih => exact multiPool_strong_allocate ih hn hstep
  | deallocStep mp mp' d hr hstep ih => exact multiPool_strong_deallocate ih hstep

/-- Summing conservation over a list of pools. -/
theorem sum_pools_conservation {l : List MemoryPool}
    (h : ∀ q ∈ l, q.getNumFreeChunks + q.getNumAllocatedChunks = q.getNumChunks) :
    (l.map MemoryPool.getNumFreeChunks).sum + (l.map MemoryPool.getNumAllocatedChunks).sum
      = (l.map MemoryPool.getNumChunks).sum := by
  induction l with
  | nil => simp
  | cons q l ih =>
    simp only [List.map_cons, List.sum_cons]
    have h1 := h q (by simp)
    have h2 := ih (fun q' hq' => h q' (by simp [hq']))
    omega

/-- C6.  After every public SinglePool operation — that is, for every
pool reachable from a constructor by allocate and deallocate calls —
the size-ordered index freeSetBySize and the position-ordered index
freeList contain exactly the same collection of chunk ranges: they are
permutations of one another, so a range is in one exactly when it is in
the other. -/
theorem C6_indexAgreement {p : MemoryPool} (h : p.Reachable) :
    p.freeSetBySize.Perm p.freeList ∧
      ∀ r : Nat × Nat, r ∈ p.freeSetBySize ↔ r ∈ p.freeList := by
  obtain ⟨-, -, -, -, hperm, -, -⟩ := reachable_baseInvariant h
  exact ⟨hperm, fun r => hperm.mem_iff⟩

/-- C6 witness: the pool obtained from a 4-chunk pool by one 1-byte
allocation is reachable, and its two indices agree. -/
theorem C6_indexAgreement_witness :
    (((mkMemoryPool 4).allocate 1).2.freeSetBySize.Perm
        ((mkMemoryPool 4).allocate 1).2.freeList ∧
      ∀ r : Nat × Nat, r ∈ ((mkMemoryPool 4).allocate 1).2.freeSetBySize ↔
        r ∈ ((mkMemoryPool 4).allocate 1).2.freeList) :=
  C6_indexAgreement
    (MemoryPool.Reachable.allocStep (mkMemoryPool 4) ((mkMemoryPool 4).allocate 1).2 1
      ((mkMemoryPool 4).allocate 1).1 (MemoryPool.Reachable.construct 4) rfl)

/-- C5 (amended).  For every SinglePool reachable with every allocation
request of at least one byte, num_free_chunks + num_allocated_chunks =
num_chunks after every public operation; the same identity holds for
the aggregated MultiPool getters.  (The unrestricted claim fails:
see the zero-byte counterexample.) -/
theorem C5_conservation :
    (∀ p : MemoryPool, p.ReachablePos →
        p.getNumFreeChunks + p.getNumAllocatedChunks = p.getNumChunks) ∧
      (∀ mp : MultiPool, MultiPool.ReachablePos mp →
        mp.getNumFreeChunks + mp.getNumAllocatedChunks = mp.getNumChunks) := by
  constructor
  · intro p hp
    exact conservation_of_strong (reachablePos_strongInvariant hp)
  · intro mp hmp
    have hall := multiReachable_strong hmp
    exact sum_pools_conservation (fun q hq => conservation_of_strong (hall q hq))

/-- C5 witness: conservation at a freshly constructed 4-chunk pool and
at a MultiPool after a positive allocation. -/
theorem C5_conservation_witness :
    ((mkMemoryPool 4).getNumFreeChunks + (mkMemoryPool 4).getNumAllocatedChunks
        = (mkMemoryPool 4).getNumChunks) ∧
      (((mkMultiPool 4).allocate 1).2.getNumFreeChunks
          + ((mkMultiPool 4).allocate 1).2.getNumAllocatedChunks
        = ((mkMultiPool 4).allocate 1).2.getNumChunks) :=
  ⟨C5_conservation.1 (mkMemoryPool 4) (MemoryPool.ReachablePos.construct 4 (by decide)),
    C5_conservation.2 ((mkMultiPool 4).allocate 1).2
      (MultiPool.ReachablePos.allocStep (mkMultiPool 4) ((mkMultiPool 4).allocate 1).2 1
        ((mkMultiPool 4).allocate 1).1 (MultiPool.ReachablePos.construct 4 (by decide))
        (by decide) rfl)⟩

/-- C3.  Best-fit selection: whenever allocate succeeds on a pool whose
size index is sorted and agrees with the free list (invariant I1), the
consumed free range — the lower-bound hit whose base address is
returned and recorded — has the smallest size among all free ranges of
size at least required_chunks(n); among free ranges of that size it has
the lowest begin index. -/
theorem C3_bestFit {p p' : MemoryPool} {n : Nat} {a : Nat}
    (hsort : SetSorted p.freeSetBySize) (hperm : p.freeSetBySize.Perm p.freeList)
    (h : p.allocate n = (some a, p')) :
    ∃ r : Nat × Nat,
      setLowerBound p.freeSetBySize (MemoryPool.getRequiredChunks n) = some r ∧
      r ∈ p.freeList ∧
      MemoryPool.getRequiredChunks n ≤ r.2 - r.1 ∧
      a = r.1 * DEFAULT_CHUNK_SIZE ∧
      mapLookup p'.allocations a = some (r.1, r.1 + MemoryPool.getRequiredChunks n) ∧
      ∀ f ∈ p.freeList, MemoryPool.getRequiredChunks n ≤ f.2 - f.1 →
        (r.2 - r.1 < f.2 - f.1 ∨ (r.2 - r.1 = f.2 - f.1 ∧ r.1 ≤ f.1)) := by
  rcases allocate_cases h with ⟨ha, -, -⟩ | ⟨b, e, hlb, hemp, ha, hps, hal, hbr⟩
  · cases ha
  · have hav : a = b * DEFAULT_CHUNK_SIZE := by
      injection ha
    refine ⟨(b, e), hlb, hperm.mem_iff.mp (setLowerBound_mem hlb),
      setLowerBound_size hlb, hav, ?_, ?_⟩
    · rw [hal, hav]
      exact mapInsert_lookup_self _ _ _
    · intro f hf hkf
      exact setLowerBound_min hsort hlb f (hperm.mem_iff.mpr hf) hkf

/-- C3 witness: on a pool with free ranges [0,1) and [3,5), a one-chunk
request picks [0,1) — the smallest sufficient range — and records
[0,1) at byte offset 0. -/
theorem C3_bestFit_witness :
    ∃ r : Nat × Nat,
      setLowerBound (MemoryPool.mk 6144 [(0, 1), (3, 5)] [(0, 1), (3, 5)] []).freeSetBySize
          (MemoryPool.getRequiredChunks 1024) = some r ∧
      r ∈ (MemoryPool.mk 6144 [(0, 1), (3, 5)] [(0, 1), (3, 5)] []).freeList ∧
      MemoryPool.getRequiredChunks 1024 ≤ r.2 - r.1 ∧
      0 = r.1 * DEFAULT_CHUNK_SIZE ∧
      mapLookup (MemoryPool.mk 6144 [(3, 5)] [(3, 5)] [(0, (0, 1))]).allocations 0
        = some (r.1, r.1 + MemoryPool.getRequiredChunks 1024) ∧
      ∀ f ∈ (MemoryPool.mk 6144 [(0, 1), (3, 5)] [(0, 1), (3, 5)] []).freeList,
        MemoryPool.getRequiredChunks 1024 ≤ f.2 - f.1 →
        (r.2 - r.1 < f.2 - f.1 ∨ (r.2 - r.1 = f.2 - f.1 ∧ r.1 ≤ f.1)) :=
  C3_bestFit
    (by unfold SetSorted; decide)
    (by decide)
    (by decide : (MemoryPool.mk 6144 [(0, 1), (3, 5)] [(0, 1), (3, 5)] []).allocate 1024
      = (some 0, MemoryPool.mk 6144 [(3, 5)] [(3, 5)] [(0, (0, 1))]))

/-- Two pools with equal fields are equal. -/
theorem memoryPool_eq_of_fields {x y : MemoryPool}
    (h1 : x.poolSize = y.poolSize) (h2 : x.freeList = y.freeList)
    (h3 : x.freeSetBySize = y.freeSetBySize) (h4 : x.allocations = y.allocations) :
    x = y := by
  cases x
  cases y
  simp_all

/-- C10.  Zero-byte allocation on a pool with a non-empty free list:
the call returns the base address of the first free range in size
order, consumes no chunks (the free indices and num_free_chunks are
unchanged), records the empty range [b, b) as a new allocation, and a
second consecutive zero-byte allocation returns the same address,
overwrites that record and leaves the whole state unchanged — so the
two calls together leave num_allocations at 1 on an allocation-free
pool. -/
theorem C10_zeroByteAllocate {p : MemoryPool} (hp : StrongInvariant p)
    (hne : p.freeList ≠ []) :
    ∃ b e p1,
      p.freeSetBySize.head? = some (b, e) ∧
      p.allocate 0 = (some (b * DEFAULT_CHUNK_SIZE), p1) ∧
      p1.freeList = p.freeList ∧
      p1.freeSetBySize = p.freeSetBySize ∧
      p1.getNumFreeChunks = p.getNumFreeChunks ∧
      mapLookup p1.allocations (b * DEFAULT_CHUNK_SIZE) = some (b, b) ∧
      p1.getNumAllocations = p.getNumAllocations + 1 ∧
      p1.allocate 0 = (some (b * DEFAULT_CHUNK_SIZE), p1) ∧
      (p.allocations = [] → p1.getNumAllocations = 1) := by
  obtain ⟨⟨hfree, halloc, hkeys, hsort, hperm, hcount, hsep⟩, hfpos, hapos, hcover⟩ := hp
  have hsne : p.freeSetBySize ≠ [] := by
    intro hc
    rw [hc] at hperm
    exact hne hperm.symm.eq_nil
  rcases hset : p.freeSetBySize with - | ⟨hd, tl⟩
  · exact absurd hset hsne
  obtain ⟨b, e⟩ := hd
  have hmemset : (((b : Nat), (e : Nat))) ∈ p.freeSetBySize := by
    rw [hset]
    simp
  have hmemlist := hperm.mem_iff.mp hmemset
  have hble : b < e := hfpos _ hmemlist
  have he_le : e ≤ p.getNumChunks := (hfree (b, e) hmemlist).2
  have hk0 : MemoryPool.getRequiredChunks 0 = 0 := rfl
  have hlb : setLowerBound p.freeSetBySize (MemoryPool.getRequiredChunks 0) = some (b, e) := by
    rw [hk0, hset]
    exact setLowerBound_zero _ _
  have hkey_fresh : mapLookup p.allocations (b * DEFAULT_CHUNK_SIZE) = none := by
    cases hlo : mapLookup p.allocations (b * DEFAULT_CHUNK_SIZE) with
    | none => rfl
    | some r0 =>
      exfalso
      have hent := mapLookup_mem hlo
      have hkeyeq : b * DEFAULT_CHUNK_SIZE = r0.1 * DEFAULT_CHUNK_SIZE :=
        (halloc (b * DEFAULT_CHUNK_SIZE, r0) hent).2.2
      have hr0b : r0.1 = b := (Nat.eq_of_mul_eq_mul_right chunk_size_pos hkeyeq).symm
      have hr0pos : r0.1 < r0.2 := hapos (b * DEFAULT_CHUNK_SIZE, r0) hent
      have hin : inRange r0 b = true := by
        simp only [inRange, decide_eq_true_eq]
        omega
      have hsnd : r0 ∈ p.allocations.map Prod.snd := List.mem_map_of_mem Prod.snd hent
      have h1 := countCover_pos hsnd hin
      have hinf : inRange (b, e) b = true := by
        simp only [inRange, decide_eq_true_eq]
        omega
      have h2 := countCover_pos hmemlist hinf
      have hc := hcount b (by omega)
      omega
  rcases hres : p.allocate 0 with ⟨a1, p1⟩
  rcases allocate_cases hres with ⟨-, -, hfail⟩ | ⟨b', e', hlb', hemp, ha, hps, hal, hbr⟩
  · rcases hfail with hfail | hfail
    · exact absurd hfail hne
    · rw [hlb] at hfail
      cases hfail
  · rw [hlb'] at hlb
    have hbe : b = b' ∧ e = e' := by
      simp only [Option.some.injEq, Prod.mk.injEq] at hlb
      exact ⟨hlb.1.symm, hlb.2.symm⟩
    obtain ⟨hb', he'⟩ := hbe
    subst hb'
    subst he'
    rcases hbr with ⟨hsz, -, -⟩ | ⟨-, hfl, hfs⟩
    · rw [hk0] at hsz
      omega
    · rw [hk0, Nat.add_zero] at hfl hfs hal
      rw [listReplace_self] at hfl
      rw [setInsert_setErase_cancel hsort hmemset] at hfs
      have hnfc : p1.getNumFreeChunks = p.getNumFreeChunks := by
        rw [MemoryPool.getNumFreeChunks, MemoryPool.getNumFreeChunks, hfl]
      have hlook : mapLookup p1.allocations (b * DEFAULT_CHUNK_SIZE) = some (b, b) := by
        rw [hal]
        exact mapInsert_lookup_self _ _ _
      have hna : p1.getNumAllocations = p.getNumAllocations + 1 := by
        rw [MemoryPool.getNumAllocations, MemoryPool.getNumAllocations, hal,
          (mapInsert_fresh_perm hkey_fresh).length_eq]
        rfl
      have ha1 : a1 = some (b * DEFAULT_CHUNK_SIZE) := ha
      subst ha1
      refine ⟨b, e, p1, rfl, rfl, hfl, hfs.trans hset, hnfc, hlook, hna, ?_, ?_⟩
      · -- second zero-byte call is the identity
        rcases hres2 : p1.allocate 0 with ⟨a2, p2⟩
        have hlb2 : setLowerBound p1.freeSetBySize (MemoryPool.getRequiredChunks 0)
            = some (b, e) := by
          rw [hfs, hk0, hset]
          exact setLowerBound_zero _ _
        rcases allocate_cases hres2 with ⟨-, -, hfail⟩ | ⟨b2, e2, hlb2', hemp2, ha2, hps2, hal2, hbr2⟩
        · rcases hfail with hfail | hfail
          · rw [hfl] at hfail
            exact absurd hfail hne
          · rw [hlb2] at hfail
            cases hfail
        · rw [hlb2'] at hlb2
          have hbe2 : b = b2 ∧ e = e2 := by
            simp only [Option.some.injEq, Prod.mk.injEq] at hlb2
            exact ⟨hlb2.1.symm, hlb2.2.symm⟩
          obtain ⟨hb2, he2⟩ := hbe2
          subst hb2
          subst he2
          rcases hbr2 with ⟨hsz2, -, -⟩ | ⟨-, hfl2, hfs2⟩
          · rw [hk0] at hsz2
            omega
          · rw [hk0, Nat.add_zero] at hfl2 hfs2 hal2
            rw [hfl, listReplace_self] at hfl2
            rw [hfs] at hfs2
            rw [setInsert_setErase_cancel hsort hmemset] at hfs2
            rw [hal, mapInsert_idem] at hal2
            have hp2 : p2 = p1 := by
              refine memoryPool_eq_of_fields ?_ ?_ ?_ ?_
              · rw [hps2, hps]
              · rw [hfl2, hfl]
              · rw [hfs2, hfs]
              · rw [hal2, hal]
            rw [hp2, ha2]
      · intro hempty
        rw [hna, MemoryPool.getNumAllocations, hempty]
        rfl

/-- C10 witness: the fresh 4-chunk pool satisfies the strong invariant
and has a non-empty free list, discharging both hypotheses. -/
theorem C10_zeroByteAllocate_witness :
    ∃ b e p1,
      (mkMemoryPool 4).freeSetBySize.head? = some (b, e) ∧
      (mkMemoryPool 4).allocate 0 = (some (b * DEFAULT_CHUNK_SIZE), p1) ∧
      p1.freeList = (mkMemoryPool 4).freeList ∧
      p1.freeSetBySize = (mkMemoryPool 4).freeSetBySize ∧
      p1.getNumFreeChunks = (mkMemoryPool 4).getNumFreeChunks ∧
      mapLookup p1.allocations (b * DEFAULT_CHUNK_SIZE) = some (b, b) ∧
      p1.getNumAllocations = (mkMemoryPool 4).getNumAllocations + 1 ∧
      p1.allocate 0 = (some (b * DEFAULT_CHUNK_SIZE), p1) ∧
      ((mkMemoryPool 4).allocations = [] → p1.getNumAllocations = 1) :=
  C10_zeroByteAllocate (strongInvariant_mk (by decide)) (by decide)

/-- A freshly constructed pool of C chunks satisfies any request needing
at most C chunks, handing out offset 0. -/
theorem mk_allocate_some (C n : Nat) (h : MemoryPool.getRequiredChunks n ≤ C) :
    ((mkMemoryPool C).allocate n).1 = some 0 := by
  have hne : (mkMemoryPool C).freeList ≠ [] := by simp [mkMemoryPool]
  have hlb : setLowerBound (mkMemoryPool C).freeSetBySize (MemoryPool.getRequiredChunks n)
      = some (0, C) := by
    show (if C - 0 < MemoryPool.getRequiredChunks n
        then setLowerBound [] (MemoryPool.getRequiredChunks n)
        else some (0, C)) = some (0, C)
    rw [if_neg (by omega)]
  rw [MemoryPool.allocate, if_neg hne]
  simp only [hlb]
  split
  · rfl
  · rfl

/-- When the probing loop fails on every pool it returns the maximum of
the accumulator and the largest capacity among the pools. -/
theorem allocateOnPools_inr_max {n : Nat} :
    ∀ (pools : List MemoryPool) (acc M : Nat),
      allocateOnPools n pools acc = Sum.inr M → M = max acc (maxChunks pools) := by
  intro pools
  induction pools with
  | nil =>
    intro acc M h
    simp only [allocateOnPools, Sum.inr.injEq] at h
    subst h
    show acc = max acc (maxChunks [])
    show acc = max acc 0
    omega
  | cons pool ps ih =>
    intro acc M h
    simp only [allocateOnPools] at h
    rcases hstep : pool.allocate n with ⟨optoff, pool'⟩
    rw [hstep] at h
    cases optoff with
    | some off => simp at h
    | none =>
      cases hrec : allocateOnPools n ps
          (if acc < pool.getNumChunks then pool.getNumChunks else acc) with
      | inl res =>
        obtain ⟨ps2, i2, off2⟩ := res
        rw [hrec] at h
        simp at h
      | inr m =>
        rw [hrec] at h
        simp only [Sum.inr.injEq] at h
        subst h
        have hm := ih _ _ hrec
        have hmax : maxChunks (pool :: ps) = max pool.getNumChunks (maxChunks ps) := rfl
        rw [hm, hmax]
        split_ifs <;> omega

/-- C4. MultiPool growth and totality: MultiPool::allocate never returns
a null address; and whenever the probing loop fails on every existing
pool (returning the running maximum M), M is the largest getNumChunks
among the existing pools, a new pool of exactly M * 2 + getRequiredChunks
n chunks is appended at the back, the allocation on that fresh pool
succeeds at offset 0, and the returned address points into the appended
pool. -/
theorem C4_multiPoolGrowth (mp : MultiPool) (n : Nat) :
    ((mp.allocate n).1.isSome = true) ∧
    ∀ M, allocateOnPools n mp.pools 0 = Sum.inr M →
      M = maxChunks mp.pools ∧
      ((mkMemoryPool (M * 2 + MemoryPool.getRequiredChunks n)).allocate n).1 = some 0 ∧
      (mp.allocate n).1 = some (mp.pools.length, 0) ∧
      (mp.allocate n).2.pools.length = mp.pools.length + 1 ∧
      ((mp.allocate n).2.pools.getLast?).map MemoryPool.getNumChunks
        = some (M * 2 + MemoryPool.getRequiredChunks n) := by
  cases hloop : allocateOnPools n mp.pools 0 with
  | inl res =>
    obtain ⟨ps', i, off⟩ := res
    constructor
    · simp [MultiPool.allocate, hloop]
    · intro M hM
      simp at hM
  | inr most =>
    have hsucc := mk_allocate_some (most * 2 + MemoryPool.getRequiredChunks n) n (by omega)
    rcases hnew : (mkMemoryPool (most * 2 + MemoryPool.getRequiredChunks n)).allocate n
      with ⟨optoff, pool'⟩
    rw [hnew] at hsucc
    simp only at hsucc
    subst hsucc
    have hall : mp.allocate n
        = (some (mp.pools.length, 0),
          { pools := mp.pools ++ [pool']
            allocations := routeInsert mp.allocations (mp.pools.length, 0) mp.pools.length }) := by
      simp only [MultiPool.allocate, hloop, hnew]
    constructor
    · rw [hall]
      rfl
    · intro M hM
      simp only [Sum.inr.injEq] at hM
      subst hM
      refine ⟨?_, ?_, ?_, ?_, ?_⟩
      · have hm := allocateOnPools_inr_max mp.pools 0 most hloop
        rw [hm]
        show max 0 (maxChunks mp.pools) = maxChunks mp.pools
        omega
      · rw [hnew]
      · rw [hall]
      · rw [hall]
        simp
      · rw [hall]
        show ((mp.pools ++ [pool']).getLast?).map MemoryPool.getNumChunks = _
        rw [List.getLast?_concat]
        have hcap : pool'.getNumChunks = most * 2 + MemoryPool.getRequiredChunks n := by
          have h1 : pool'.poolSize
              = (mkMemoryPool (most * 2 + MemoryPool.getRequiredChunks n)).poolSize :=
            allocate_poolSize hnew
          rw [MemoryPool.getNumChunks, h1]
          exact getNumChunks_mk _
        simp [hcap]

/-- C4 witness: a MultiPool of one 4-chunk pool, filled by one 4096-byte
allocation; the next 4096-byte request fails on the existing pool, the
loop returns M = 4, and a fresh pool of 4 * 2 + 4 = 12 chunks is
appended, serving the request at offset 0. -/
theorem C4_multiPoolGrowth_witness :
    (((((mkMultiPool 4).allocate 4096).2).allocate 4096).1.isSome = true) ∧
      (4 = maxChunks (((mkMultiPool 4).allocate 4096).2).pools ∧
        ((mkMemoryPool (4 * 2 + MemoryPool.getRequiredChunks 4096)).allocate 4096).1 = some 0 ∧
        ((((mkMultiPool 4).allocate 4096).2).allocate 4096).1
          = some ((((mkMultiPool 4).allocate 4096).2).pools.length, 0) ∧
        ((((mkMultiPool 4).allocate 4096).2).allocate 4096).2.pools.length
          = (((mkMultiPool 4).allocate 4096).2).pools.length + 1 ∧
        (((((mkMultiPool 4).allocate 4096).2).allocate 4096).2.pools.getLast?).map
            MemoryPool.getNumChunks
          = some (4 * 2 + MemoryPool.getRequiredChunks 4096)) :=
  ⟨(C4_multiPoolGrowth ((mkMultiPool 4).allocate 4096).2 4096).1,
    (C4_multiPoolGrowth ((mkMultiPool 4).allocate 4096).2 4096).2 4 (by decide)⟩
